import Mathlib

/-!
Verification development for the ROOP language-support repository.

Lines are modelled as lists of characters (`Line`); a document is a list of
lines (newlines already split off, as both `server.ts` and `extension.ts`
operate line-by-line via `lineAt` / `document.lineAt`).  The JavaScript
regular expressions used by the sources are encoded as executable predicates
over `Line`; `\s` is the ASCII whitespace class (the documents at stake are
ASCII), `\w` is `[A-Za-z0-9_]`, `\b` after a keyword ending in a word
character holds when the next character is absent or not a word character.
-/

set_option maxRecDepth 4000

abbrev Line := List Char

/-- ASCII whitespace, the fragment of the JS `\s` class relevant here. -/
def wsC (c : Char) : Bool :=
  c == ' ' || c == '\t' || c == '\n' || c == '\r' || c == '\x0b' || c == '\x0c'

/-- JS `\w`, i.e. `[A-Za-z0-9_]`. -/
def wordC (c : Char) : Bool :=
  (65 ≤ c.toNat && c.toNat ≤ 90) || (97 ≤ c.toNat && c.toNat ≤ 122) ||
  (48 ≤ c.toNat && c.toNat ≤ 57) || c == '_'

/-- JS `\d`. -/
def digitC (c : Char) : Bool := 48 ≤ c.toNat && c.toNat ≤ 57

/-- ASCII lower-casing, for the `/i` regex flag. -/
def lowerCh (c : Char) : Char :=
  if 65 ≤ c.toNat && c.toNat ≤ 90 then Char.ofNat (c.toNat + 32) else c

def lowerL (t : Line) : Line := t.map lowerCh

/-- Drop leading whitespace (JS `trimStart`, and the `^\s*` regex prefix). -/
def dropW : Line → Line
  | [] => []
  | c :: cs => if wsC c then dropW cs else c :: cs

/-- The whitespace prefix removed by `dropW`. -/
def takeW : Line → Line
  | [] => []
  | c :: cs => if wsC c then c :: takeW cs else []

/-- JS `trimEnd`. -/
def trimR (t : Line) : Line := (dropW t.reverse).reverse

/-- JS `trim`. -/
def trimB (t : Line) : Line := trimR (dropW t)

/-- Match a literal pattern at the front of the text, returning the rest. -/
def chomp : Line → Line → Option Line
  | [], t => some t
  | _ :: _, [] => none
  | p :: ps, c :: cs => if p == c then chomp ps cs else none

/-- Pattern `\s+` (maximal munch; always followed by a non-whitespace requirement). -/
def reqWs1 : Line → Option Line
  | [] => none
  | c :: cs => if wsC c then some (dropW cs) else none

/-- Word boundary after a keyword: next character absent or not a word char. -/
def bAfter : Line → Bool
  | [] => true
  | c :: _ => !wordC c

/-- Pattern `u.endsWith ":"` for a string `u` (used on already-trimmed strings):
the last character exists and is a colon. -/
def endsC (u : Line) : Bool := u.reverse.headD ' ' == ':'

/-- JS `/:\s*$/.test t`, and also `t.trim().endsWith ":"`: the last
non-whitespace character exists and is a colon. -/
def hasColonRe (t : Line) : Bool := (dropW t.reverse).headD ' ' == ':' 

/-- Pattern `kw\b` at the front of `u` (the `kw\b.*` alternatives). -/
def wordAlt (kw : Line) (u : Line) : Bool :=
  match chomp kw u with
  | none => false
  | some r => bAfter r

/-- Pattern `kw1\s+kw2\b` at the front of `u`. -/
def word2Alt (kw1 kw2 : Line) (u : Line) : Bool :=
  match chomp kw1 u with
  | none => false
  | some r =>
    match reqWs1 r with
    | none => false
    | some r2 =>
      match chomp kw2 r2 with
      | none => false
      | some r3 => bAfter r3

/-- server.ts `isStartTask`: `/^\s*start\s+task\b/`. -/
def isStartTask (t : Line) : Bool := word2Alt ("start").toList ("task").toList (dropW t)

/-- server.ts `isEndTask`: `/^\s*end\s+task\b/`. -/
def isEndTask (t : Line) : Bool := word2Alt ("end").toList ("task").toList (dropW t)

/-- The `on\s+\w+` alternative of `endsWithColonCandidate` (anchored at both
ends, so the rest of the trimmed line must be exactly `on`, whitespace, and a
word). -/
def onWordAlt (u : Line) : Bool :=
  match chomp ("on").toList u with
  | none => false
  | some r =>
    match reqWs1 r with
    | none => false
    | some r2 => !r2.isEmpty && r2.all wordC

/-- server.ts `endsWithColonCandidate`: trims the line, rejects comments and
blanks, then tests
`/^(when\b.*|on\s+\w+|if\b.*|elseif\b.*|else\b.*|repeat\b.*|while\b.*|for\b.*|parallel\b.*|template\s+task\b.*)$/`. -/
def endsWithColonCandidate (line : Line) : Bool :=
  let u := trimB line
  if (chomp ("//").toList u).isSome then false
  else if u.isEmpty then false
  else
    wordAlt ("when").toList u || onWordAlt u || wordAlt ("if").toList u ||
    wordAlt ("elseif").toList u || wordAlt ("else").toList u ||
    wordAlt ("repeat").toList u || wordAlt ("while").toList u ||
    wordAlt ("for").toList u || wordAlt ("parallel").toList u ||
    word2Alt ("template").toList ("task").toList u

/-- Pattern `kw\b.*:` anchored at both ends of trimmed text `u`. -/
def wordColon (kw : Line) (u : Line) : Bool := wordAlt kw u && endsC u

/-- Pattern `on\s+\w+\s*:` anchored at both ends. -/
def onColon (u : Line) : Bool :=
  match chomp ("on").toList u with
  | none => false
  | some r =>
    match reqWs1 r with
    | none => false
    | some r2 =>
      let w := r2.takeWhile wordC
      !w.isEmpty && dropW (r2.drop w.length) == [':']

/-- Pattern `kw\s*:` anchored at both ends (the `else\s*:` / `parallel\s*:` cases). -/
def bareColon (kw : Line) (u : Line) : Bool :=
  match chomp kw u with
  | none => false
  | some r => dropW r == [':']

/-- Pattern `template\s+task\b.*:` anchored at both ends. -/
def templateColon (u : Line) : Bool :=
  word2Alt ("template").toList ("task").toList u && endsC u

/-- The block-opener regex shared by server.ts folding (block folds) and the
formatter's post-increment:
`/^(when\b.*:|on\s+\w+\s*:|if\b.*:|elseif\b.*:|else\s*:|repeat\b.*:|while\b.*:|for\b.*:|parallel\s*:|template\s+task\b.*:)$/`
tested on the trimmed line. -/
def serverOpener (u : Line) : Bool :=
  wordColon ("when").toList u || onColon u || wordColon ("if").toList u ||
  wordColon ("elseif").toList u || bareColon ("else").toList u ||
  wordColon ("repeat").toList u || wordColon ("while").toList u ||
  wordColon ("for").toList u || bareColon ("parallel").toList u ||
  templateColon u

/-!
## extension.ts predicates

The extension's regexes carry the `/i` flag, so the text is ASCII-lower-cased
before matching.  `stripLineComment` cuts the line at the first `//` and
trims the end.
-/

/-- The part of the line before the first `//` (JS `indexOf("//")`). -/
def beforeSlashes : Line → Line
  | [] => []
  | c :: cs =>
    if c == '/' && cs.headD ' ' == '/' then []
    else c :: beforeSlashes cs

/-- extension.ts `stripLineComment`. -/
def stripLineComment (t : Line) : Line := trimR (beforeSlashes t)

/-- extension.ts `startRe`: `/^\s*start\s+task\b/i`. -/
def extIsStart (t : Line) : Bool :=
  word2Alt ("start").toList ("task").toList (dropW (lowerL t))

/-- extension.ts `endRe`: `/^\s*end\s+task\b/i`. -/
def extIsEnd (t : Line) : Bool :=
  word2Alt ("end").toList ("task").toList (dropW (lowerL t))

/-- Rest of a bare-keyword alternative of `HEADER_MAY_REQUIRE_COLON_RE`:
the suffix must match `\s*:?\s*$`. -/
def restColonOpt (r : Line) : Bool :=
  match dropW r with
  | [] => true
  | ':' :: rs => (dropW rs).isEmpty
  | _ => false

/-- Bare alternative `kw` of the header regex followed by `\s*:?\s*$`. -/
def bareOpt (kw : Line) (u : Line) : Bool :=
  match chomp kw u with
  | none => false
  | some r => restColonOpt r

/-- extension.ts `HEADER_MAY_REQUIRE_COLON_RE`:
`/^\s*(?:when\b.*|on\b.*|at\b.*|if\b.*|elseif\b.*|else|repeat\b.*|while\b.*|for\b.*|parallel|context\b.*|with\s+timeout\b.*|every\b.*|sync\s+when\b.*|template\s+task\b.*|fallback)\s*:?\s*$/i`.
For the `kw\b.*` alternatives the greedy `.*` absorbs the tail, so only the
keyword-plus-boundary prefix matters. -/
def extHeader (t : Line) : Bool :=
  let u := lowerL (dropW t)
  wordAlt ("when").toList u || wordAlt ("on").toList u || wordAlt ("at").toList u ||
  wordAlt ("if").toList u || wordAlt ("elseif").toList u || bareOpt ("else").toList u ||
  wordAlt ("repeat").toList u || wordAlt ("while").toList u || wordAlt ("for").toList u ||
  bareOpt ("parallel").toList u || wordAlt ("context").toList u ||
  word2Alt ("with").toList ("timeout").toList u || wordAlt ("every").toList u ||
  word2Alt ("sync").toList ("when").toList u ||
  word2Alt ("template").toList ("task").toList u || bareOpt ("fallback").toList u

/-- Pattern `kw1\s+kw2\b.*:` followed by `\s*$`: prefix match plus a trailing colon. -/
def word2Colon (kw1 kw2 : Line) (u : Line) : Bool :=
  word2Alt kw1 kw2 u && hasColonRe u

/-- Pattern `kw\b.*:` followed by `\s*$` for the extension regexes (the colon may be
followed by trailing whitespace, unlike the server's `$`-anchored form). -/
def wordColonWs (kw : Line) (u : Line) : Bool :=
  wordAlt kw u && hasColonRe u

/-- Literal `kw` followed by `\s*$`. -/
def litWs (kw : Line) (u : Line) : Bool :=
  match chomp kw u with
  | none => false
  | some r => r.all wsC

/-- extension.ts `DECREASE_INDENT_RE`:
`/^\s*(?:end\s+task\b|elseif\b.*:|else:)\s*$/i`. -/
def extDec (t : Line) : Bool :=
  let u := lowerL (dropW t)
  (match chomp ("end").toList u with
   | none => false
   | some r =>
     match reqWs1 r with
     | none => false
     | some r2 =>
       match chomp ("task").toList r2 with
       | none => false
       | some r3 => r3.all wsC
   ) ||
  wordColonWs ("elseif").toList u || litWs ("else:").toList u

/-- extension.ts `INCREASE_INDENT_RE`:
`/^\s*(?:(?:when|on|at|if|elseif|else|repeat|while|for|parallel|context|with\s+timeout|every|sync\s+when)\b.*:|(?:detached\s+run|await\s+run|run)\b.*:|template\s+task\b.*:|start\s+task\b.*(?::\s*)?$|fallback:)\s*$/i`. -/
def extInc (t : Line) : Bool :=
  let u := lowerL (dropW t)
  wordColonWs ("when").toList u || wordColonWs ("on").toList u ||
  wordColonWs ("at").toList u || wordColonWs ("if").toList u ||
  wordColonWs ("elseif").toList u || wordColonWs ("else").toList u ||
  wordColonWs ("repeat").toList u || wordColonWs ("while").toList u ||
  wordColonWs ("for").toList u || wordColonWs ("parallel").toList u ||
  wordColonWs ("context").toList u || word2Colon ("with").toList ("timeout").toList u ||
  wordColonWs ("every").toList u || word2Colon ("sync").toList ("when").toList u ||
  word2Colon ("detached").toList ("run").toList u ||
  word2Colon ("await").toList ("run").toList u || wordColonWs ("run").toList u ||
  word2Colon ("template").toList ("task").toList u ||
  word2Alt ("start").toList ("task").toList u || litWs ("fallback:").toList u

/-!
## Task-balance diagnostics

server.ts `validateTextDocument`, section 6.2, simply counts `start task` and
`end task` lines and emits a single document-level diagnostic when the counts
differ.  extension.ts `collectTaskBalanceDiagnostics` runs a stack scan and
emits one diagnostic per closer-without-opener (at the closer's line) and one
per unmatched opener (at the opener's line), stopping at the budget.
-/

def countStartSrv : List Line → Nat
  | [] => 0
  | l :: ls => (if isStartTask l then 1 else 0) + countStartSrv ls

def countEndSrv : List Line → Nat
  | [] => 0
  | l :: ls => (if isEndTask l then 1 else 0) + countEndSrv ls

/-- server.ts 6.2: one whole-document diagnostic (anchored at line 0) iff the
keyword counts differ; `[]` otherwise. -/
def serverTaskDiags (lines : List Line) : List (Nat × Nat) :=
  if countStartSrv lines == countEndSrv lines then []
  else [(0, max 1 (lines.headD []).length)]

inductive TaskDiag where
  | closerNoOpener (line : Nat)
  | openerNoCloser (line : Nat)
deriving DecidableEq, Repr

/-- The end-of-scan `while` loop of `collectTaskBalanceDiagnostics`: pop the
remaining openers (most recent first) while the budget allows. -/
def extFlush : Nat → List Nat → List TaskDiag
  | 0, _ => []
  | _, [] => []
  | Nat.succ r, i :: rest => TaskDiag.openerNoCloser i :: extFlush r rest

/-- The scan loop of `collectTaskBalanceDiagnostics`; `r` is the remaining
budget (the loop exits as soon as `out.length` reaches the budget), `idx` the
current line number, `stack` the lines of currently open `start task`s. -/
def extBalAux : Nat → Nat → List Nat → List Line → List TaskDiag
  | r, _, stack, [] => extFlush r stack
  | 0, _, _, _ :: _ => []
  | Nat.succ r, idx, stack, l :: ls =>
    let text := stripLineComment l
    if text.isEmpty then extBalAux (r + 1) (idx + 1) stack ls
    else if extIsStart text then extBalAux (r + 1) (idx + 1) (idx :: stack) ls
    else if extIsEnd text then
      match stack with
      | [] => TaskDiag.closerNoOpener idx :: extBalAux r (idx + 1) [] ls
      | _ :: rest => extBalAux (r + 1) (idx + 1) rest ls
    else extBalAux (r + 1) (idx + 1) stack ls

/-- extension.ts `collectTaskBalanceDiagnostics doc severity budget` (the
severity only decorates the diagnostics, so it is not a parameter here). -/
def collectTaskBalanceDiagnostics (lines : List Line) (budget : Nat) : List TaskDiag :=
  extBalAux budget 0 [] lines

/-- The same scan without a budget (used to factor proofs; related to the
budgeted version by `List.take`). -/
def extBalAll : Nat → List Nat → List Line → List TaskDiag
  | _, stack, [] => stack.map TaskDiag.openerNoCloser
  | idx, stack, l :: ls =>
    let text := stripLineComment l
    if text.isEmpty then extBalAll (idx + 1) stack ls
    else if extIsStart text then extBalAll (idx + 1) (idx :: stack) ls
    else if extIsEnd text then
      match stack with
      | [] => TaskDiag.closerNoOpener idx :: extBalAll (idx + 1) [] ls
      | _ :: rest => extBalAll (idx + 1) rest ls
    else extBalAll (idx + 1) stack ls

def countStartExt : List Line → Nat
  | [] => 0
  | l :: ls => (if extIsStart (stripLineComment l) then 1 else 0) + countStartExt ls

def countEndExt : List Line → Nat
  | [] => 0
  | l :: ls => (if extIsEnd (stripLineComment l) then 1 else 0) + countEndExt ls

/-- The order side of the spec's balance property: scanning left to right with
a depth counter, every closer must find a positive depth (a not-yet-matched
opener) at the point it appears. -/
def closersCovered : Nat → List Line → Bool
  | _, [] => true
  | d, l :: ls =>
    let t := stripLineComment l
    if extIsStart t then closersCovered (d + 1) ls
    else if extIsEnd t then decide (0 < d) && closersCovered (d - 1) ls
    else closersCovered d ls

/-- A line that opens or closes no task is transparent to the balance scan. -/
def neutralLine (l : Line) : Bool :=
  !extIsStart (stripLineComment l) && !extIsEnd (stripLineComment l)

/-!
## Formatters

server.ts `connection.onDocumentFormatting` (section 11) rebuilds each line
as `pad ++ trimmed` (appending a missing colon on candidate headers), with a
pre-decrement for `end task` / `elseif...:` / `else :` lines and a
post-increment for `start task` and colon-terminated block headers.  Note its
post-increment tests the *original* trimmed line, before the colon fix.

extension.ts `provideDocumentFormattingEdits` normalizes the colon *first*
and then classifies the normalized line with `DECREASE_INDENT_RE` /
`INCREASE_INDENT_RE`.
-/

/-- Pattern `/^start\s+task\b/` on an already-trimmed line. -/
def startPrefix (u : Line) : Bool := word2Alt ("start").toList ("task").toList u

/-- Pattern `/^end\s+task\b/` on an already-trimmed line. -/
def endPrefix (u : Line) : Bool := word2Alt ("end").toList ("task").toList u

/-- The server formatter's pre-decrement condition:
`/^end\s+task\b/` or `/^(elseif\b.*:|else\s*:)$/` on the trimmed line. -/
def serverPreDec (u : Line) : Bool :=
  endPrefix u || wordColon ("elseif").toList u || bareColon ("else").toList u

/-- The server formatter's post-increment condition:
`/^start\s+task\b/` or the block-opener regex on the trimmed line. -/
def serverPostInc (u : Line) : Bool := startPrefix u || serverOpener u

/-- One step of the server formatter's indentation level: the displayed level
of the line (after the pre-decrement) and the running level for the next
line.  Levels are integers clamped at zero via `Math.max(0, level - 1)`. -/
def serverStepLevel (lvl : Int) (line : Line) : Int × Int :=
  let u := trimB line
  let d := if serverPreDec u then max 0 (lvl - 1) else lvl
  (d, if serverPostInc u then d + 1 else d)

/-- The per-line displayed indentation levels of the server formatter. -/
def serverLevels (lvl : Int) : List Line → List Int
  | [] => []
  | l :: ls => (serverStepLevel lvl l).1 :: serverLevels (serverStepLevel lvl l).2 ls

/-- The running level after a list of lines. -/
def serverLevelEnd (lvl : Int) : List Line → Int
  | [] => lvl
  | l :: ls => serverLevelEnd (serverStepLevel lvl l).2 ls

/-- server.ts formatter, one line: rebuilt text and next running level. -/
def serverFormatLine (n : Nat) (lvl : Int) (line : Line) : Line × Int :=
  let u := trimB line
  let d := if serverPreDec u then max 0 (lvl - 1) else lvl
  let out := List.replicate (d.toNat * n) ' ' ++
    (if endsWithColonCandidate u && !endsC u then u ++ [':'] else u)
  (out, if serverPostInc u then d + 1 else d)

/-- server.ts `connection.onDocumentFormatting`: the rewritten document. -/
def serverFormat (n : Nat) (lvl : Int) : List Line → List Line
  | [] => []
  | l :: ls => (serverFormatLine n lvl l).1 :: serverFormat n (serverFormatLine n lvl l).2 ls

/-- extension.ts formatter: `normalized` — append the missing colon to a
header line (`text.replace(/\s*$/, ":")`). -/
def extNorm (line : Line) : Line :=
  if extHeader line && !hasColonRe line then trimR line ++ [':'] else line

/-- extension.ts formatter: `trimmed = normalized.trimStart()`. -/
def extTrimmed (line : Line) : Line := dropW (extNorm line)

/-- extension.ts formatter: the indent level of the current line after the
guarded decrement `if (isDecreasing && indentLevel > 0) indentLevel--`. -/
def extD (lvl : Int) (line : Line) : Int :=
  if extDec (extTrimmed line) && decide (0 < lvl) then lvl - 1 else lvl

/-- extension.ts formatter, one line: the rebuilt text
`desiredIndent + trimmed` and the next running level. -/
def extFormatLine (n : Nat) (lvl : Int) (line : Line) : Line × Int :=
  (List.replicate ((extD lvl line).toNat * n) ' ' ++ extTrimmed line,
   if extInc (extTrimmed line) then extD lvl line + 1 else extD lvl line)

/-- extension.ts `provideDocumentFormattingEdits`: the rewritten document
(each line replaced by its rebuilt text). -/
def extFormat (n : Nat) (lvl : Int) : List Line → List Line
  | [] => []
  | l :: ls => (extFormatLine n lvl l).1 :: extFormat n (extFormatLine n lvl l).2 ls

inductive LintLevel where
  | off | hint | warning | error
deriving DecidableEq, Repr

structure MCDiag where
  line : Nat
  startChar : Nat
  endChar : Nat
deriving DecidableEq, Repr

/-- The loop of server.ts 6.1: one diagnostic spanning the whole line for
each `endsWithColonCandidate` line whose trimmed text lacks the colon. -/
def serverMCAux : Nat → List Line → List MCDiag
  | _, [] => []
  | i, l :: ls =>
    if endsWithColonCandidate l && !hasColonRe l then
      MCDiag.mk i 0 l.length :: serverMCAux (i + 1) ls
    else serverMCAux (i + 1) ls

/-- server.ts 6.1 `validateTextDocument` MissingColon section, gated on the
configured severity. -/
def serverMissingColonDiags (sev : LintLevel) (lines : List Line) : List MCDiag :=
  if sev = LintLevel.off then [] else serverMCAux 0 lines

/-- The mechanical fix of the code action: append `:` to the trimmed-end text
of every candidate header that lacks it. -/
def fixColons (lines : List Line) : List Line :=
  lines.map (fun l =>
    if endsWithColonCandidate l && !hasColonRe l then trimR l ++ [':'] else l)

/-!
## C7: transparency of blank and comment-only lines, and the folding passes
-/

/-- Whitespace-only line (`/^\s*$/` on the raw text). -/
def isBlankLine (t : Line) : Bool := (dropW t).isEmpty

/-- Comment-only line: the trimmed text starts with `//`. -/
def isCommentLine (t : Line) : Bool := (chomp ("//").toList (dropW t)).isSome

/-- server.ts task folds (section 10): a single `taskStart` variable, set by
`start task` lines and flushed by `end task` lines. -/
def taskFoldsAux : Nat → Option Nat → List Line → List (Nat × Nat)
  | _, _, [] => []
  | i, cur, l :: ls =>
    if isStartTask l then taskFoldsAux (i + 1) (some i) ls
    else if isEndTask l then
      match cur with
      | some s => (if s < i then [(s, i)] else []) ++ taskFoldsAux (i + 1) none ls
      | none => taskFoldsAux (i + 1) none ls
    else taskFoldsAux (i + 1) cur ls

/-- The end-of-document flush of the block-fold stack: fold each still-open
block up to the last line (`pushFold` keeps only ranges with `end > start`). -/
def blockFlush : List Nat → Nat → List (Nat × Nat)
  | [], _ => []
  | s :: rest, eof => (if s < eof then [(s, eof)] else []) ++ blockFlush rest eof

/-- server.ts block folds (section 10): opener lines push, blank lines close
the innermost open block at the previous line, the rest close at EOF. -/
def blockFoldsAux : Nat → List Nat → Nat → List Line → List (Nat × Nat)
  | _, stack, eof, [] => blockFlush stack eof
  | i, stack, eof, l :: ls =>
    let u := trimB l
    if serverOpener u then blockFoldsAux (i + 1) (i :: stack) eof ls
    else if u.isEmpty then
      match stack with
      | [] => blockFoldsAux (i + 1) [] eof ls
      | s :: rest => (if s < i - 1 then [(s, i - 1)] else []) ++ blockFoldsAux (i + 1) rest eof ls
    else blockFoldsAux (i + 1) stack eof ls

/-- server.ts `connection.onFoldingRanges`: task folds then block folds, as
`(startLine, endLine)` pairs. -/
def serverFolds (lines : List Line) : List (Nat × Nat) :=
  taskFoldsAux 0 none lines ++ blockFoldsAux 0 [] (lines.length - 1) lines

/-!
## C8: the per-document diagnostic budget of extension.ts `validateDocument`
-/

/-- extension.ts `collectMissingColonDiagnostics` without the budget: skip
whitespace-only lines, strip comments and trim, and report header lines
missing the trailing colon. -/
def extMCAll : Nat → List Line → List Nat
  | _, [] => []
  | i, l :: ls =>
    if isBlankLine l then extMCAll (i + 1) ls
    else
      let text := trimB (stripLineComment l)
      if text.isEmpty then extMCAll (i + 1) ls
      else if extHeader text && !hasColonRe text then i :: extMCAll (i + 1) ls
      else extMCAll (i + 1) ls

/-- extension.ts `collectMissingColonDiagnostics` with its budget: the loop
runs while `out.length < budget`. -/
def extMCBudget : Nat → Nat → List Line → List Nat
  | _, _, [] => []
  | 0, _, _ :: _ => []
  | Nat.succ r, i, l :: ls =>
    if isBlankLine l then extMCBudget (r + 1) (i + 1) ls
    else
      let text := trimB (stripLineComment l)
      if text.isEmpty then extMCBudget (r + 1) (i + 1) ls
      else if extHeader text && !hasColonRe text then i :: extMCBudget r (i + 1) ls
      else extMCBudget (r + 1) (i + 1) ls

def collectMissingColonDiagnostics (lines : List Line) (budget : Nat) : List Nat :=
  extMCBudget budget 0 lines

/-- extension.ts `validateDocument`: clamp the configured cap to at least 1,
run the missing-colon pass with the full budget, then the balance pass with
the remaining budget, and concatenate (earlier diagnostics are kept). -/
def validateDocument (lines : List Line) (maxProblemsCfg : Nat) (mcOn balOn : Bool) :
    List (Sum Nat TaskDiag) :=
  let maxProblems := max 1 maxProblemsCfg
  let mc := if mcOn then (collectMissingColonDiagnostics lines maxProblems).map Sum.inl
    else []
  let bal := if decide (mc.length < maxProblems) && balOn
    then (collectTaskBalanceDiagnostics lines (maxProblems - mc.length)).map Sum.inr
    else []
  mc ++ bal

/-!
## C5 and C9: document symbols (server.ts section 9) and their relation to
folding ranges
-/

/-- Parse `"([^"]+)"` at the front: an opening quote, a non-empty run of
non-quote characters, and the closing quote. -/
def quoted : Line → Option Line
  | '"' :: rest =>
    let name := rest.takeWhile (fun c => c != '"')
    if name.isEmpty then none
    else
      match rest.drop name.length with
      | '"' :: _ => some name
      | _ => none
  | _ => none

/-- Parse `"([^"]+)":` at the front (closing quote immediately followed by a
colon, as in the template-task regex). -/
def quotedColon : Line → Option Line
  | '"' :: rest =>
    let name := rest.takeWhile (fun c => c != '"')
    if name.isEmpty then none
    else
      match rest.drop name.length with
      | '"' :: ':' :: _ => some name
      | _ => none
  | _ => none

/-- server.ts symbol scan: `/^\s*start\s+task\s+"([^"]+)"/`. -/
def parseTaskOpen (t : Line) : Option Line :=
  (chomp ("start").toList (dropW t)).bind fun r =>
    (reqWs1 r).bind fun r2 =>
      (chomp ("task").toList r2).bind fun r3 =>
        (reqWs1 r3).bind fun r4 => quoted r4

/-- server.ts symbol scan: `/^\s*template\s+task\s+"([^"]+)":/`. -/
def parseTemplateOpen (t : Line) : Option Line :=
  (chomp ("template").toList (dropW t)).bind fun r =>
    (reqWs1 r).bind fun r2 =>
      (chomp ("task").toList r2).bind fun r3 =>
        (reqWs1 r3).bind fun r4 => quotedColon r4

structure SymEntry where
  name : Line
  startLine : Nat
deriving DecidableEq, Repr

structure OutSym where
  name : Line
  startLine : Nat
  endLine : Nat
deriving DecidableEq, Repr

/-- The end-of-document flush of server.ts `onDocumentSymbol`: every
unterminated block still yields a symbol, spanning to the last line. -/
def symFlush : List SymEntry → Nat → List OutSym
  | [], _ => []
  | e :: rest, eof => OutSym.mk e.name e.startLine eof :: symFlush rest eof

/-- The scan of server.ts `onDocumentSymbol`: titled task openers and
template openers push; `end task` pops and emits a symbol. -/
def symAux : Nat → List SymEntry → Nat → List Line → List OutSym
  | _, stack, eof, [] => symFlush stack eof
  | i, stack, eof, l :: ls =>
    match parseTaskOpen l with
    | some name => symAux (i + 1) (SymEntry.mk name i :: stack) eof ls
    | none =>
      match parseTemplateOpen l with
      | some name =>
        symAux (i + 1) (SymEntry.mk (("(template) ").toList ++ name) i :: stack) eof ls
      | none =>
        if isEndTask l then
          match stack with
          | [] => symAux (i + 1) [] eof ls
          | e :: rest => OutSym.mk e.name e.startLine i :: symAux (i + 1) rest eof ls
        else symAux (i + 1) stack eof ls

/-- server.ts `connection.onDocumentSymbol`. -/
def serverSymbols (lines : List Line) : List OutSym :=
  symAux 0 [] (lines.length - 1) lines

/-- The stack left at the end of the symbol scan: the unterminated openers. -/
def symStackEnd : Nat → List SymEntry → List Line → List SymEntry
  | _, stack, [] => stack
  | i, stack, l :: ls =>
    match parseTaskOpen l with
    | some name => symStackEnd (i + 1) (SymEntry.mk name i :: stack) ls
    | none =>
      match parseTemplateOpen l with
      | some name =>
        symStackEnd (i + 1) (SymEntry.mk (("(template) ").toList ++ name) i :: stack) ls
      | none =>
        if isEndTask l then
          match stack with
          | [] => symStackEnd (i + 1) [] ls
          | _ :: rest => symStackEnd (i + 1) rest ls
        else symStackEnd (i + 1) stack ls

/-- Flat, fully-closed task documents: every `start task` is titled, there
are no template-task lines, tasks never nest, and every opener is closed. -/
def flatClosedAux : Bool → List Line → Bool
  | openB, [] => !openB
  | openB, l :: ls =>
    if isStartTask l then (parseTaskOpen l).isSome && !openB && flatClosedAux true ls
    else if (parseTemplateOpen l).isSome then false
    else if isEndTask l then openB && flatClosedAux false ls
    else flatClosedAux openB ls

def flatClosed (lines : List Line) : Bool := flatClosedAux false lines

/-!
## C10: completion (server.ts section 7)
-/

/-- The action catalog of server.ts, flattened in object-entry order. -/
def ACTION_LABELS : List String :=
  ["detect", "scan", "observe", "track", "classify", "identify", "localize", "map",
    "estimate",
    "move", "navigate", "go to", "approach", "follow", "back off", "retreat", "avoid",
    "dock", "undock", "align", "orient", "set speed",
    "grasp", "release", "pick", "place", "push", "pull", "press", "turn", "flip",
    "slide", "insert", "remove", "pour", "fill", "empty", "stir", "scoop", "shake",
    "tighten", "loosen", "open", "close", "lock", "unlock",
    "turn on", "turn off", "dim", "brighten", "toggle", "set temperature", "ventilate",
    "humidify",
    "clean", "wipe", "wash", "rinse", "dry", "vacuum", "mop", "sweep", "sanitize",
    "disinfect", "sort", "stack", "fold",
    "cook", "bake", "boil", "fry", "heat", "cool", "brew", "serve", "deliver",
    "fetch", "bring", "collect", "carry", "transfer", "handover",
    "say", "display", "notify", "ask", "expect", "wait for", "log", "play", "pause",
    "stop", "resume", "record", "capture", "photograph", "stream",
    "measure", "weigh", "sample", "analyze", "test", "calibrate", "self-check",
    "charge", "start module", "stop module", "restart module",
    "assign", "dispatch", "synchronize", "coordinate", "share map",
    "remember", "recall", "store", "load",
    "emergency stop", "yield", "wait",
    "plan", "plan path", "plan grasp"]

def DIRECTIVES : List String := ["import", "include", "pragma"]

def STRUCTURAL : List String :=
  ["start task", "end task", "template task", "context", "use module", "define",
    "run", "call", "await run", "detached run", "assign", "dispatch task",
    "synchronize"]

def OPERATORS : List String :=
  ["and", "or", "not", "is", "exists", "near", "on", "in", "before", "after",
    "within", "confidently", "probably", "similar to", "anchor on", "relative to"]

def EVENTS : List String :=
  ["failure", "success", "timeout", "deviation", "interruption"]

/-- Word boundary seen from the right (on reversed text): the preceding
character is absent or not a word character. -/
def bAfterRev : Line → Bool
  | [] => true
  | c :: _ => !wordC c

/-- Match a reversed keyword at the front of reversed text, with a `\b` on
its left in the original orientation. -/
def chompBRev (kw : Line) (u : Line) : Bool :=
  match chomp kw u with
  | none => false
  | some rest => bAfterRev rest

/-- Pattern `/^\s*$/` on the prefix up to the cursor. -/
def blankPre (t : Line) : Bool := t.all wsC

/-- Pattern `/\bon\s+$/`. -/
def afterOnP (t : Line) : Bool :=
  let r := t.reverse
  let r1 := r.dropWhile wsC
  !(r1 == r) && chompBRev ("no").toList r1

/-- Pattern `/\buse\s+$/`. -/
def afterUseP (t : Line) : Bool :=
  let r := t.reverse
  let r1 := r.dropWhile wsC
  !(r1 == r) && chompBRev ("esu").toList r1

/-- Pattern `/\brepeat\s+\d*\s*$/`: either digits are present (then whitespace must
separate them from the keyword) or the keyword is followed by whitespace
only. -/
def afterRepeatP (t : Line) : Bool :=
  let r := t.reverse
  let r1 := r.dropWhile wsC
  let r2 := r1.dropWhile digitC
  (!(r2 == r1) && (match r2 with
    | [] => false
    | c :: cs => wsC c && chompBRev ("taeper").toList (cs.dropWhile wsC))) ||
  (!(r1 == r) && chompBRev ("taeper").toList r1)

/-- Pattern `/\bif\s+$/`. -/
def afterIfP (t : Line) : Bool :=
  let r := t.reverse
  let r1 := r.dropWhile wsC
  !(r1 == r) && chompBRev ("fi").toList r1

/-- Pattern `/\bat\s+time\s*$/`. -/
def afterAtTimeP (t : Line) : Bool :=
  let r := t.reverse
  let r1 := r.dropWhile wsC
  match chomp ("emit").toList r1 with
  | none => false
  | some rest =>
    match rest with
    | [] => false
    | c :: cs => wsC c && chompBRev ("ta").toList (cs.dropWhile wsC)

/-- server.ts `connection.onCompletion` as the list of item labels it pushes,
in order: context-rule items first, then the action catalog, directives,
structural keywords, operators, and the user-configured extra keywords. -/
def onCompletionLabels (tillCursor : Line) (extras : List String) : List String :=
  (if blankPre tillCursor then ["start task", "when", "if", "parallel", "repeat"]
    else []) ++
  (if afterOnP tillCursor then EVENTS.map (fun e => "on " ++ e ++ ":") else []) ++
  (if afterUseP tillCursor then ["use module"] else []) ++
  (if afterRepeatP tillCursor then ["repeat N times:"] else []) ++
  (if afterIfP tillCursor
    then ["if object \"type\" with color \"c\" is on \"Area\":"] else []) ++
  (if afterAtTimeP tillCursor then ["at time \"HH:MM\":"] else []) ++
  ACTION_LABELS ++ DIRECTIVES ++ STRUCTURAL ++ OPERATORS ++ extras

example : isStartTask ("  start   task \"A\"").toList = true := by decide

example : isStartTask ("start tasks").toList = false := by decide

example : isStartTask ("start task:").toList = true := by decide

example : isStartTask ("starting task").toList = false := by decide

example : isEndTask ("end task").toList = true := by decide

example : endsWithColonCandidate ("  if x > 3").toList = true := by decide

example : endsWithColonCandidate ("on failure").toList = true := by decide

example : endsWithColonCandidate ("on failure:").toList = false := by decide

example : endsWithColonCandidate ("// if x").toList = false := by decide

example : endsWithColonCandidate ("start task \"A\"").toList = false := by decide

example : serverOpener ("if x:").toList = true := by decide

example : serverOpener ("else :").toList = true := by decide

example : serverOpener ("elseif y:").toList = true := by decide

example : serverOpener ("if x").toList = false := by decide

example : hasColonRe ("if x:  ").toList = true := by decide

example : hasColonRe ("if x").toList = false := by decide

example : stripLineComment ("say hi // c").toList = ("say hi").toList := by decide

example : stripLineComment ("// end task").toList = [] := by decide

example : extIsStart ("  Start  Task \"A\"").toList = true := by decide

example : extHeader ("when I see a cup").toList = true := by decide

example : extHeader ("else").toList = true := by decide

example : extHeader ("elsewhere").toList = false := by decide

example : extHeader ("say hi").toList = false := by decide

example : extDec ("end task").toList = true := by decide

example : extDec ("end task now").toList = false := by decide

example : extDec ("  ELSEIF x:").toList = true := by decide

example : extInc ("when x:").toList = true := by decide

example : extInc ("when x").toList = false := by decide

example : extInc ("start task \"A\"").toList = true := by decide

example : extInc ("fallback:").toList = true := by decide

example :
    collectTaskBalanceDiagnostics
      [("start task \"A\"").toList, ("say hi").toList, ("end task").toList] 200 = [] := by
  decide

example :
    collectTaskBalanceDiagnostics [("end task").toList, ("start task \"A\"").toList] 200 =
      [TaskDiag.closerNoOpener 0, TaskDiag.openerNoCloser 1] := by decide

example :
    collectTaskBalanceDiagnostics
      [("say hi").toList, ("start task \"A\"").toList, ("start task \"B\"").toList,
        ("end task").toList] 200 = [TaskDiag.openerNoCloser 1] := by decide

example : serverTaskDiags [("end task").toList, ("start task \"A\"").toList] = [] := by
  decide

/-!
## Basic lemmas about the scanning helpers
-/


theorem chomp_eq {p u r : Line} (h : chomp p u = some r) : u = p ++ r := by
  induction p generalizing u with
  | nil =>
    simp only [chomp, Option.some.injEq] at h
    simpa using h
  | cons c cs ih =>
    cases u with
    | nil => simp [chomp] at h
    | cons d ds =>
      simp only [chomp] at h
      by_cases hc : c == d
      · rcases eq_of_beq hc with rfl
        simp only [hc, if_pos] at h
        simpa using ih h
      · simp [hc] at h

/-- A `start task` line is never also an `end task` line. -/
theorem extStart_not_end {t : Line} (h : extIsStart t = true) : extIsEnd t = false := by
  unfold extIsStart word2Alt at h
  cases hc : chomp ("start").toList (dropW (lowerL t)) with
  | none => rw [hc] at h; simp at h
  | some r =>
    unfold extIsEnd word2Alt
    rw [chomp_eq hc]
    rfl

theorem extEnd_not_start {t : Line} (h : extIsEnd t = true) : extIsStart t = false := by
  by_cases hs : extIsStart t
  · rw [extStart_not_end hs] at h; exact absurd h (by simp)
  · simpa using hs

theorem extFlush_eq_take (r : Nat) (stack : List Nat) :
    extFlush r stack = (stack.map TaskDiag.openerNoCloser).take r := by
  induction stack generalizing r with
  | nil => cases r <;> simp [extFlush]
  | cons s rest ih =>
    cases r with
    | zero => simp [extFlush]
    | succ r => simp [extFlush, ih]

theorem extBalAux_eq_take (ls : List Line) :
    ∀ r idx stack, extBalAux r idx stack ls = (extBalAll idx stack ls).take r := by
  induction ls with
  | nil => intro r idx stack; simp [extBalAux, extBalAll, extFlush_eq_take]
  | cons l ls ih =>
    intro r idx stack
    cases r with
    | zero => simp [extBalAux]
    | succ r =>
      simp only [extBalAux, extBalAll]
      by_cases he : (stripLineComment l).isEmpty
      · simp [he, ih]
      · by_cases hs : extIsStart (stripLineComment l)
        · simp [he, hs, ih]
        · by_cases hd : extIsEnd (stripLineComment l)
          · cases stack with
            | nil => simp [he, hs, hd, ih]
            | cons a rest => simp [he, hs, hd, ih]
          · simp [he, hs, hd, ih]

theorem extBalAll_nil_iff (ls : List Line) :
    ∀ idx stack, (extBalAll idx stack ls = [] ↔
      (closersCovered stack.length ls = true ∧
        stack.length + countStartExt ls = countEndExt ls)) := by
  induction ls with
  | nil =>
    intro idx stack
    simp [extBalAll, closersCovered, countStartExt, countEndExt,
      List.map_eq_nil_iff, List.length_eq_zero]
  | cons l ls ih =>
    intro idx stack
    simp only [extBalAll, closersCovered, countStartExt, countEndExt]
    by_cases hs : extIsStart (stripLineComment l)
    · by_cases he : (stripLineComment l).isEmpty
      · rw [List.isEmpty_iff] at he
        rw [he] at hs
        exact absurd hs (by decide)
      · have hne := extStart_not_end hs
        simp only [he, Bool.false_eq_true, if_false, hs, if_true, hne]
        rw [ih (idx + 1) (idx :: stack)]
        simp only [List.length_cons]
        constructor
        · rintro ⟨h1, h2⟩; exact ⟨h1, by omega⟩
        · rintro ⟨h1, h2⟩; exact ⟨h1, by omega⟩
    · by_cases he : (stripLineComment l).isEmpty
      · have he' := he
        rw [List.isEmpty_iff] at he'
        have hs0 : extIsStart (stripLineComment l) = false := by rw [he']; decide
        have hd0 : extIsEnd (stripLineComment l) = false := by rw [he']; decide
        simp only [he, if_true, hs0, hd0, Bool.false_eq_true, if_false]
        rw [ih (idx + 1) stack]
        constructor
        · rintro ⟨h1, h2⟩; exact ⟨h1, by omega⟩
        · rintro ⟨h1, h2⟩; exact ⟨h1, by omega⟩
      · simp only [he, Bool.false_eq_true, if_false, hs]
        by_cases hd : extIsEnd (stripLineComment l)
        · simp only [hd, if_true]
          cases stack with
          | nil => simp
          | cons a rest =>
            rw [ih (idx + 1) rest]
            simp only [List.length_cons]
            constructor
            · rintro ⟨h1, h2⟩
              refine ⟨?_, by omega⟩
              rw [Bool.and_eq_true]
              exact ⟨by simp, by simpa using h1⟩
            · rintro ⟨h1, h2⟩
              have h1' : closersCovered (rest.length + 1 - 1) ls = true := by
                rw [Bool.and_eq_true] at h1
                exact h1.2
              exact ⟨by simpa using h1', by omega⟩
        · simp only [hd, Bool.false_eq_true, if_false]
          rw [ih (idx + 1) stack]
          constructor
          · rintro ⟨h1, h2⟩; exact ⟨h1, by omega⟩
          · rintro ⟨h1, h2⟩; exact ⟨h1, by omega⟩

/-- Claim C1: (amended).  For the extension's stack-based balance pass
(`collectTaskBalanceDiagnostics`), with any positive budget, the number of
`UnbalancedTask` diagnostics is zero iff the count of task-opener lines
equals the count of task-closer lines and every closer finds a
not-yet-matched opener at the point it appears.  The server's count-based
pass does not satisfy the claimed equivalence; see
`unbalancedTask_iff_fails_on_server`. -/
theorem unbalancedTask_zero_iff_balanced_ext (lines : List Line) (b : Nat)
    (hb : 1 ≤ b) :
    (collectTaskBalanceDiagnostics lines b).length = 0 ↔
      (countStartExt lines = countEndExt lines ∧ closersCovered 0 lines = true) := by
  unfold collectTaskBalanceDiagnostics
  rw [extBalAux_eq_take, List.length_take]
  constructor
  · intro h
    have hlen : (extBalAll 0 [] lines).length = 0 := by omega
    have hiff := (extBalAll_nil_iff lines 0 []).mp (List.length_eq_zero.mp hlen)
    exact ⟨by simpa using hiff.2, hiff.1⟩
  · rintro ⟨h1, h2⟩
    have hnil : extBalAll 0 [] lines = [] :=
      (extBalAll_nil_iff lines 0 []).mpr ⟨by simpa using h2, by simpa using h1⟩
    simp [hnil]

/-- Witness for C1's theorem at a concrete balanced document. -/
theorem unbalancedTask_zero_iff_balanced_ext_witness :
    (collectTaskBalanceDiagnostics
        [("start task \"A\"").toList, ("say hi").toList, ("end task").toList]
        200).length = 0 ↔
      (countStartExt
          [("start task \"A\"").toList, ("say hi").toList, ("end task").toList] =
        countEndExt
          [("start task \"A\"").toList, ("say hi").toList, ("end task").toList] ∧
        closersCovered 0
          [("start task \"A\"").toList, ("say hi").toList, ("end task").toList] = true) :=
  unbalancedTask_zero_iff_balanced_ext
    [("start task \"A\"").toList, ("say hi").toList, ("end task").toList] 200
    (by decide)

/-- Claim C1: counterexample.  The server's balance pass in
`validateTextDocument` only compares totals: on a document whose first task
keyword is a closer but whose totals match, it emits zero `UnbalancedTask`
diagnostics, while the claimed equivalence demands at least one (the order
condition fails because the closer precedes every opener). -/
theorem unbalancedTask_iff_fails_on_server :
    ¬ ((serverTaskDiags [("end task").toList, ("start task \"A\"").toList]).length = 0 ↔
        (countStartSrv [("end task").toList, ("start task \"A\"").toList] =
            countEndSrv [("end task").toList, ("start task \"A\"").toList] ∧
          closersCovered 0 [("end task").toList, ("start task \"A\"").toList] = true)) := by
  decide

/-!
## C2: where the balance diagnostics are anchored
-/

theorem isEmpty_false_of_extIsStart {t : Line} (h : extIsStart t = true) :
    t.isEmpty = false := by
  cases t with
  | nil => exact absurd h (by decide)
  | cons c cs => rfl

theorem isEmpty_false_of_extIsEnd {t : Line} (h : extIsEnd t = true) :
    t.isEmpty = false := by
  cases t with
  | nil => exact absurd h (by decide)
  | cons c cs => rfl

theorem extBalAll_neutral (ns : List Line) (h : ∀ l ∈ ns, neutralLine l = true) :
    ∀ idx stack ts, extBalAll idx stack (ns ++ ts) = extBalAll (idx + ns.length) stack ts := by
  induction ns with
  | nil => intro idx stack ts; simp
  | cons l ls ih =>
    intro idx stack ts
    have hl : neutralLine l = true := h l (by simp)
    have hs : extIsStart (stripLineComment l) = false := by
      unfold neutralLine at hl
      rw [Bool.and_eq_true] at hl
      simpa using hl.1
    have hd : extIsEnd (stripLineComment l) = false := by
      unfold neutralLine at hl
      rw [Bool.and_eq_true] at hl
      simpa using hl.2
    have ih' := ih (fun x hx => h x (by simp [hx]))
    simp only [List.cons_append, extBalAll, hs, hd, Bool.false_eq_true, if_false]
    have harith : idx + 1 + ls.length = idx + (ls.length + 1) := by omega
    by_cases he : (stripLineComment l).isEmpty
    · rw [if_pos he]
      rw [show ls.append ts = ls ++ ts from rfl, ih' (idx + 1) stack ts]
      simp only [List.length_cons]
      rw [harith]
    · rw [if_neg (by simp [he])]
      rw [show ls.append ts = ls ++ ts from rfl, ih' (idx + 1) stack ts]
      simp only [List.length_cons]
      rw [harith]

theorem extBalAll_closer_ge (ls : List Line) :
    ∀ idx stack i, TaskDiag.closerNoOpener i ∈ extBalAll idx stack ls → idx ≤ i := by
  induction ls with
  | nil =>
    intro idx stack i h
    simp only [extBalAll, List.mem_map] at h
    obtain ⟨a, -, ha⟩ := h
    exact absurd ha (by simp)
  | cons l ls ih =>
    intro idx stack i h
    simp only [extBalAll] at h
    by_cases he : (stripLineComment l).isEmpty
    · rw [if_pos he] at h
      exact Nat.le_of_succ_le (ih (idx + 1) stack i h)
    · rw [if_neg (by simp [he])] at h
      by_cases hs : extIsStart (stripLineComment l)
      · rw [if_pos hs] at h
        exact Nat.le_of_succ_le (ih (idx + 1) (idx :: stack) i h)
      · rw [if_neg (by simp [hs])] at h
        by_cases hd : extIsEnd (stripLineComment l)
        · rw [if_pos hd] at h
          cases stack with
          | nil =>
            rcases List.mem_cons.mp h with h1 | h1
            · injection h1 with h1; omega
            · exact Nat.le_of_succ_le (ih (idx + 1) [] i h1)
          | cons a rest => exact Nat.le_of_succ_le (ih (idx + 1) rest i h)
        · rw [if_neg (by simp [hd])] at h
          exact Nat.le_of_succ_le (ih (idx + 1) stack i h)

theorem extBalAll_nodup (ls : List Line) :
    ∀ idx stack, (∀ s ∈ stack, s < idx) → stack.Nodup →
      (extBalAll idx stack ls).Nodup := by
  induction ls with
  | nil =>
    intro idx stack hlt hnd
    exact hnd.map (fun a b hab => by injection hab)
  | cons l ls ih =>
    intro idx stack hlt hnd
    simp only [extBalAll]
    by_cases he : (stripLineComment l).isEmpty
    · rw [if_pos he]
      exact ih (idx + 1) stack (fun s hs => Nat.lt_succ_of_lt (hlt s hs)) hnd
    · rw [if_neg (by simp [he])]
      by_cases hs : extIsStart (stripLineComment l)
      · rw [if_pos hs]
        refine ih (idx + 1) (idx :: stack) ?_ ?_
        · intro s hsm
          rcases List.mem_cons.mp hsm with rfl | hsm
          · omega
          · exact Nat.lt_succ_of_lt (hlt s hsm)
        · exact List.nodup_cons.mpr ⟨fun hmem => absurd (hlt idx hmem) (by omega), hnd⟩
      · rw [if_neg (by simp [hs])]
        by_cases hd : extIsEnd (stripLineComment l)
        · rw [if_pos hd]
          cases stack with
          | nil =>
            refine List.nodup_cons.mpr ⟨?_, ih (idx + 1) [] (by simp) (by simp)⟩
            intro hmem
            have := extBalAll_closer_ge ls (idx + 1) [] idx hmem
            omega
          | cons a rest =>
            exact ih (idx + 1) rest
              (fun s hsm => Nat.lt_succ_of_lt (hlt s (List.mem_cons_of_mem a hsm)))
              hnd.of_cons
        · rw [if_neg (by simp [hd])]
          exact ih (idx + 1) stack (fun s hsm => Nat.lt_succ_of_lt (hlt s hsm)) hnd

theorem extBalAll_mem (ls : List Line) :
    ∀ idx stack d, d ∈ extBalAll idx stack ls →
      (∃ i, d = TaskDiag.openerNoCloser i ∧
        (i ∈ stack ∨ ∃ j, j < ls.length ∧ i = idx + j ∧
          extIsStart (stripLineComment (ls.getD j [])) = true)) ∨
      (∃ i, d = TaskDiag.closerNoOpener i ∧ ∃ j, j < ls.length ∧ i = idx + j ∧
        extIsEnd (stripLineComment (ls.getD j [])) = true) := by
  induction ls with
  | nil =>
    intro idx stack d h
    simp only [extBalAll, List.mem_map] at h
    obtain ⟨a, ha, rfl⟩ := h
    exact Or.inl ⟨a, rfl, Or.inl ha⟩
  | cons l ls ih =>
    intro idx stack d h
    simp only [extBalAll] at h
    by_cases he : (stripLineComment l).isEmpty
    · rw [if_pos he] at h
      rcases ih (idx + 1) stack d h with ⟨i, rfl, hin | ⟨j, hj, rfl, hget⟩⟩ | ⟨i, rfl, j, hj, rfl, hget⟩
      · exact Or.inl ⟨i, rfl, Or.inl hin⟩
      · exact Or.inl ⟨_, rfl, Or.inr ⟨j + 1, by simpa using hj, by omega, by simpa using hget⟩⟩
      · exact Or.inr ⟨_, rfl, j + 1, by simpa using hj, by omega, by simpa using hget⟩
    · rw [if_neg (by simp [he])] at h
      by_cases hs : extIsStart (stripLineComment l)
      · rw [if_pos hs] at h
        rcases ih (idx + 1) (idx :: stack) d h with ⟨i, rfl, hin | ⟨j, hj, rfl, hget⟩⟩ | ⟨i, rfl, j, hj, rfl, hget⟩
        · rcases List.mem_cons.mp hin with rfl | hin
          · exact Or.inl ⟨i, rfl, Or.inr ⟨0, by simp, by omega, by simpa using hs⟩⟩
          · exact Or.inl ⟨i, rfl, Or.inl hin⟩
        · exact Or.inl ⟨_, rfl, Or.inr ⟨j + 1, by simpa using hj, by omega, by simpa using hget⟩⟩
        · exact Or.inr ⟨_, rfl, j + 1, by simpa using hj, by omega, by simpa using hget⟩
      · rw [if_neg (by simp [hs])] at h
        by_cases hd : extIsEnd (stripLineComment l)
        · rw [if_pos hd] at h
          have hrest :
              ∀ st, d ∈ extBalAll (idx + 1) st ls →
                (∃ i, d = TaskDiag.openerNoCloser i ∧
                  (i ∈ st ∨ ∃ j, j < (l :: ls).length ∧ i = idx + j ∧
                    extIsStart (stripLineComment ((l :: ls).getD j [])) = true)) ∨
                (∃ i, d = TaskDiag.closerNoOpener i ∧ ∃ j, j < (l :: ls).length ∧
                  i = idx + j ∧
                  extIsEnd (stripLineComment ((l :: ls).getD j [])) = true) := by
            intro st hst
            rcases ih (idx + 1) st d hst with ⟨i, rfl, hin | ⟨j, hj, rfl, hget⟩⟩ | ⟨i, rfl, j, hj, rfl, hget⟩
            · exact Or.inl ⟨i, rfl, Or.inl hin⟩
            · exact Or.inl ⟨_, rfl, Or.inr ⟨j + 1, by simpa using hj, by omega, by simpa using hget⟩⟩
            · exact Or.inr ⟨_, rfl, j + 1, by simpa using hj, by omega, by simpa using hget⟩
          cases stack with
          | nil =>
            rcases List.mem_cons.mp h with rfl | h1
            · exact Or.inr ⟨idx, rfl, 0, by simp, by omega, by simpa using hd⟩
            · exact hrest [] h1
          | cons a rest =>
            rcases hrest rest h with ⟨i, rfl, hin | hjj⟩ | hc
            · exact Or.inl ⟨i, rfl, Or.inl (List.mem_cons_of_mem a hin)⟩
            · exact Or.inl ⟨i, rfl, Or.inr hjj⟩
            · exact Or.inr hc
        · rw [if_neg (by simp [hd])] at h
          rcases ih (idx + 1) stack d h with ⟨i, rfl, hin | ⟨j, hj, rfl, hget⟩⟩ | ⟨i, rfl, j, hj, rfl, hget⟩
          · exact Or.inl ⟨i, rfl, Or.inl hin⟩
          · exact Or.inl ⟨_, rfl, Or.inr ⟨j + 1, by simpa using hj, by omega, by simpa using hget⟩⟩
          · exact Or.inr ⟨_, rfl, j + 1, by simpa using hj, by omega, by simpa using hget⟩

/-- Claim C2: (amended).  Every `UnbalancedTask` diagnostic of the extension's
balance pass is anchored either at a task-opener line (`openerNoCloser`) or
at a task-closer line (`closerNoOpener`); the diagnostics are pairwise
distinct (exactly one per defect); and in the two-openers/one-closer shape
the single diagnostic is anchored at the *first* (outermost) opener, because
the closer matches the innermost opener — not at the second opener as the
claim stated. -/
theorem unbalancedTask_anchoring (lines : List Line) :
    (∀ d ∈ extBalAll 0 [] lines,
      (∃ i, d = TaskDiag.openerNoCloser i ∧ i < lines.length ∧
        extIsStart (stripLineComment (lines.getD i [])) = true) ∨
      (∃ i, d = TaskDiag.closerNoOpener i ∧ i < lines.length ∧
        extIsEnd (stripLineComment (lines.getD i [])) = true)) ∧
    (extBalAll 0 [] lines).Nodup ∧
    (∀ w x y z : List Line, ∀ s1 s2 e : Line, ∀ b : Nat,
      (∀ l ∈ w, neutralLine l = true) → (∀ l ∈ x, neutralLine l = true) →
      (∀ l ∈ y, neutralLine l = true) → (∀ l ∈ z, neutralLine l = true) →
      extIsStart (stripLineComment s1) = true →
      extIsStart (stripLineComment s2) = true →
      extIsStart (stripLineComment e) = false →
      extIsEnd (stripLineComment e) = true →
      1 ≤ b →
      collectTaskBalanceDiagnostics (w ++ (s1 :: (x ++ (s2 :: (y ++ (e :: z)))))) b =
        [TaskDiag.openerNoCloser w.length]) := by
  refine ⟨?_, ?_, ?_⟩
  · intro d hd
    rcases extBalAll_mem lines 0 [] d hd with ⟨i, rfl, hin | ⟨j, hj, rfl, hget⟩⟩ | ⟨i, rfl, j, hj, rfl, hget⟩
    · exact absurd hin (List.not_mem_nil i)
    · exact Or.inl ⟨_, rfl, by simpa using hj, by simpa using hget⟩
    · exact Or.inr ⟨_, rfl, by simpa using hj, by simpa using hget⟩
  · exact extBalAll_nodup lines 0 [] (by simp) (by simp)
  · intro w x y z s1 s2 e b hw hx hy hz hs1 hs2 he1 he2 hb
    unfold collectTaskBalanceDiagnostics
    rw [extBalAux_eq_take]
    have key : extBalAll 0 [] (w ++ (s1 :: (x ++ (s2 :: (y ++ (e :: z)))))) =
        [TaskDiag.openerNoCloser w.length] := by
      rw [extBalAll_neutral w hw 0 [] (s1 :: (x ++ s2 :: (y ++ e :: z)))]
      simp only [extBalAll, isEmpty_false_of_extIsStart hs1, Bool.false_eq_true,
        if_false, hs1, if_true]
      rw [extBalAll_neutral x hx]
      simp only [extBalAll, isEmpty_false_of_extIsStart hs2, Bool.false_eq_true,
        if_false, hs2, if_true]
      rw [extBalAll_neutral y hy]
      simp only [extBalAll, isEmpty_false_of_extIsEnd he2, Bool.false_eq_true,
        if_false, he1, he2, if_true]
      rw [← List.append_nil z, extBalAll_neutral z hz]
      simp [extBalAll]
    rw [key]
    cases b with
    | zero => omega
    | succ b => simp

/-- Witness for C2's theorem: one filler line, two openers, one closer; the
single diagnostic is anchored at line 1, the first opener. -/
theorem unbalancedTask_anchoring_witness :
    collectTaskBalanceDiagnostics
        [("say hi").toList, ("start task \"A\"").toList, ("start task \"B\"").toList,
          ("end task").toList] 200 =
      [TaskDiag.openerNoCloser 1] :=
  (unbalancedTask_anchoring []).2.2
    [("say hi").toList] [] [] []
    ("start task \"A\"").toList ("start task \"B\"").toList ("end task").toList 200
    (by decide) (by decide) (by decide) (by decide)
    (by decide) (by decide) (by decide) (by decide) (by decide)

/-- Claim C2: counterexample.  With openers at lines 1 and 2 and the closer at
line 3, the emitted diagnostic is anchored at line 1 (the first opener, left
open after the closer matched the innermost opener at line 2), not at the
second opener line 2 as the claim states. -/
theorem unbalancedTask_second_opener_fails :
    collectTaskBalanceDiagnostics
        [("say hi").toList, ("start task \"A\"").toList, ("start task \"B\"").toList,
          ("end task").toList] 200 =
      [TaskDiag.openerNoCloser 1] ∧
    TaskDiag.openerNoCloser 2 ∉
      collectTaskBalanceDiagnostics
        [("say hi").toList, ("start task \"A\"").toList, ("start task \"B\"").toList,
          ("end task").toList] 200 := by
  decide

example :
    serverFormat 2 0 [("if x").toList, ("say hi").toList] =
      [("if x:").toList, ("say hi").toList] := by decide

example :
    serverFormat 2 0 [("if x:").toList, ("say hi").toList] =
      [("if x:").toList, ("  say hi").toList] := by decide

example :
    extFormat 2 0 [("if x").toList, ("say hi").toList] =
      [("if x:").toList, ("  say hi").toList] := by decide

example :
    extFormat 2 0 [("if x:").toList, ("  say hi").toList] =
      [("if x:").toList, ("  say hi").toList] := by decide

example :
    extFormat 2 0 [("start task \"A\"").toList, ("when cup").toList, ("grasp").toList,
        ("end task").toList] =
      [("start task \"A\"").toList, ("  when cup:").toList, ("    grasp").toList,
        ("  end task").toList] := by decide

/-!
## Whitespace lemmas for the idempotence proof
-/

theorem dropW_idem (t : Line) : dropW (dropW t) = dropW t := by
  induction t with
  | nil => rfl
  | cons c cs ih =>
    by_cases hc : wsC c
    · simp [dropW, hc, ih]
    · simp [dropW, hc]

theorem dropW_ws_append {a : Line} (ha : ∀ c ∈ a, wsC c = true) (s : Line) :
    dropW (a ++ s) = dropW s := by
  induction a with
  | nil => rfl
  | cons c cs ih =>
    have hc : wsC c = true := ha c (by simp)
    simp only [List.cons_append, dropW, hc, if_true]
    exact ih (fun x hx => ha x (by simp [hx]))

theorem dropW_append (x y : Line) :
    dropW (x ++ y) = match dropW x with
      | [] => dropW y
      | c :: cs => c :: (cs ++ y) := by
  induction x with
  | nil => rfl
  | cons c cs ih =>
    by_cases hc : wsC c
    · simp only [List.cons_append, dropW, hc, if_true]
      exact ih
    · simp [dropW, hc]

theorem dropW_nil_of_ws {a : Line} (ha : ∀ c ∈ a, wsC c = true) : dropW a = [] := by
  have := dropW_ws_append ha []
  simpa using this

theorem takeW_append_dropW (t : Line) : takeW t ++ dropW t = t := by
  induction t with
  | nil => rfl
  | cons c cs ih =>
    by_cases hc : wsC c
    · simp [takeW, dropW, hc, ih]
    · simp [takeW, dropW, hc]

theorem takeW_ws (t : Line) : ∀ c ∈ takeW t, wsC c = true := by
  induction t with
  | nil => intro c h; simp [takeW] at h
  | cons d ds ih =>
    intro c h
    by_cases hd : wsC d
    · simp only [takeW, hd, if_true] at h
      rcases List.mem_cons.mp h with rfl | h
      · exact hd
      · exact ih c h
    · simp [takeW, hd] at h

theorem replicate_space_ws (k : Nat) : ∀ c ∈ List.replicate k ' ', wsC c = true := by
  intro c h
  rw [List.eq_of_mem_replicate h]
  rfl

theorem hasColonRe_ws_append {a : Line} (ha : ∀ c ∈ a, wsC c = true) (s : Line) :
    hasColonRe (a ++ s) = hasColonRe s := by
  unfold hasColonRe
  rw [List.reverse_append, dropW_append]
  have h0 : dropW a.reverse = [] := dropW_nil_of_ws (fun c hc => ha c (by simpa using hc))
  cases hrev : dropW s.reverse with
  | nil => simp [hrev, h0]
  | cons c cs => simp [hrev]

theorem hasColonRe_dropW (t : Line) : hasColonRe (dropW t) = hasColonRe t := by
  conv_rhs => rw [← takeW_append_dropW t]
  unfold hasColonRe
  rw [List.reverse_append, dropW_append]
  have h0 : dropW (takeW t).reverse = [] :=
    dropW_nil_of_ws (fun c hc => takeW_ws t c (by simpa using hc))
  cases hrev : dropW (dropW t).reverse with
  | nil => simp [hrev, h0]
  | cons c cs => simp [hrev]

theorem hasColonRe_snoc_colon (y : Line) : hasColonRe (y ++ [':']) = true := by
  unfold hasColonRe
  rw [List.reverse_append]
  rfl

/-- The normalized-trimmed text of a colon-appended line still ends with the
colon. -/
theorem dropW_snoc_colon (y : Line) :
    hasColonRe (dropW (y ++ [':'])) = true := by
  rw [dropW_append]
  cases h : dropW y with
  | nil => rfl
  | cons c cs => exact hasColonRe_snoc_colon (c :: cs)

theorem extHeader_congr {t u : Line} (h : dropW t = dropW u) :
    extHeader t = extHeader u := by
  unfold extHeader
  rw [h]

theorem extDec_congr {t u : Line} (h : dropW t = dropW u) : extDec t = extDec u := by
  unfold extDec
  rw [h]

theorem extInc_congr {t u : Line} (h : dropW t = dropW u) : extInc t = extInc u := by
  unfold extInc
  rw [h]

theorem dropW_pad (k : Nat) (s : Line) :
    dropW (List.replicate k ' ' ++ s) = dropW s :=
  dropW_ws_append (replicate_space_ws k) s

/-- A rebuilt line re-normalizes and re-trims to the same text: the appended
colon (if any) is seen by `hasColonRe` on the second pass, a non-header stays
a non-header, and the leading pad is stripped again. -/
theorem extTrimmed_out (n : Nat) (lvl : Int) (line : Line) :
    extTrimmed ((extFormatLine n lvl line).1) = extTrimmed line := by
  have hdrop : dropW ((extFormatLine n lvl line).1) = extTrimmed line := by
    show dropW (List.replicate ((extD lvl line).toNat * n) ' ' ++ extTrimmed line) = _
    rw [dropW_pad]
    unfold extTrimmed
    exact dropW_idem _
  have hnorm : extNorm ((extFormatLine n lvl line).1) = (extFormatLine n lvl line).1 := by
    unfold extNorm
    by_cases hc : (extHeader line && !hasColonRe line) = true
    · have htr : extTrimmed line = dropW (trimR line ++ [':']) := by
        unfold extTrimmed extNorm
        rw [if_pos hc]
      have hcolon : hasColonRe (extTrimmed line) = true := by
        rw [htr]
        exact dropW_snoc_colon (trimR line)
      have hcolon' : hasColonRe ((extFormatLine n lvl line).1) = true := by
        show hasColonRe (List.replicate ((extD lvl line).toNat * n) ' ' ++ extTrimmed line) = true
        rw [hasColonRe_ws_append (replicate_space_ws _)]
        exact hcolon
      rw [hcolon']
      simp
    · rw [Bool.and_eq_true] at hc
      push_neg at hc
      by_cases hh : extHeader line = true
      · have hcol : hasColonRe line = true := by
          have h2 := hc hh
          simpa using h2
        have htr : extTrimmed line = dropW line := by
          unfold extTrimmed extNorm
          rw [if_neg (by simp [hh, hcol])]
        have hcolon' : hasColonRe ((extFormatLine n lvl line).1) = true := by
          show hasColonRe (List.replicate ((extD lvl line).toNat * n) ' ' ++ extTrimmed line) = true
          rw [hasColonRe_ws_append (replicate_space_ws _), htr, hasColonRe_dropW]
          exact hcol
        rw [hcolon']
        simp
      · have hh' : extHeader line = false := by simpa using hh
        have htr : extTrimmed line = dropW line := by
          unfold extTrimmed extNorm
          rw [if_neg (by simp [hh'])]
        have hdw : dropW ((extFormatLine n lvl line).1) = dropW line := by
          rw [hdrop, htr]
        have hhead : extHeader ((extFormatLine n lvl line).1) = false := by
          rw [extHeader_congr hdw]
          exact hh' 
        rw [hhead]
        simp
  calc extTrimmed ((extFormatLine n lvl line).1)
      = dropW (extNorm ((extFormatLine n lvl line).1)) := rfl
    _ = dropW ((extFormatLine n lvl line).1) := by rw [hnorm]
    _ = extTrimmed line := hdrop

/-- The extension formatter maps a rebuilt line, at the same incoming level,
to exactly the same rebuilt line and the same next level. -/
theorem extFormatLine_idem (n : Nat) (lvl : Int) (line : Line) :
    extFormatLine n lvl ((extFormatLine n lvl line).1) = extFormatLine n lvl line := by
  have h := extTrimmed_out n lvl line
  have hd : extD lvl ((extFormatLine n lvl line).1) = extD lvl line := by
    unfold extD
    rw [h]
  show (List.replicate ((extD lvl ((extFormatLine n lvl line).1)).toNat * n) ' ' ++
      extTrimmed ((extFormatLine n lvl line).1),
      if extInc (extTrimmed ((extFormatLine n lvl line).1)) = true
        then extD lvl ((extFormatLine n lvl line).1) + 1
        else extD lvl ((extFormatLine n lvl line).1)) = extFormatLine n lvl line
  rw [hd, h]
  rfl

/-- The extension formatter is idempotent from any starting level. -/
theorem extFormat_idem (n : Nat) : ∀ (lvl : Int) (lines : List Line),
    extFormat n lvl (extFormat n lvl lines) = extFormat n lvl lines := by
  intro lvl lines
  induction lines generalizing lvl with
  | nil => rfl
  | cons l ls ih =>
    simp only [extFormat]
    rw [extFormatLine_idem n lvl l, ih]

/-- Claim C3: (amended).  The extension's document formatter is idempotent on
every document: applying `provideDocumentFormattingEdits` to its own output
produces identical text.  The server's formatter is not idempotent when a
required colon is missing (see the counterexample): it appends the colon but
classifies the line by its *original* text, so a second pass re-indents the
following lines differently. -/
theorem formatting_idempotent_ext (n : Nat) (lines : List Line) :
    extFormat n 0 (extFormat n 0 lines) = extFormat n 0 lines :=
  extFormat_idem n 0 lines

/-- Claim C3: counterexample.  On `["if x", "say hi"]` the server formatter's
first pass yields `["if x:", "say hi"]` (no indent: the colon-less header did
not match the post-increment regex), but its second pass yields
`["if x:", "  say hi"]` — `format (format d) ≠ format d`. -/
theorem formatting_not_idempotent_server :
    serverFormat 2 0 (serverFormat 2 0 [("if x").toList, ("say hi").toList]) ≠
      serverFormat 2 0 [("if x").toList, ("say hi").toList] := by decide

/-!
## C4: the server formatter's indentation-level sequence
-/

/-- Pattern `serverStepLevel` written out without intermediate bindings. -/
theorem serverStep_eq (lvl : Int) (line : Line) :
    serverStepLevel lvl line =
      ((if serverPreDec (trimB line) then max 0 (lvl - 1) else lvl),
       (if serverPostInc (trimB line)
         then (if serverPreDec (trimB line) then max 0 (lvl - 1) else lvl) + 1
         else (if serverPreDec (trimB line) then max 0 (lvl - 1) else lvl))) := rfl

theorem serverStep_d_nonneg {lvl : Int} (h : 0 ≤ lvl) (line : Line) :
    0 ≤ (serverStepLevel lvl line).1 := by
  rw [serverStep_eq]
  dsimp only
  split
  · exact le_max_left 0 _
  · exact h

theorem serverStep_after_nonneg {lvl : Int} (h : 0 ≤ lvl) (line : Line) :
    0 ≤ (serverStepLevel lvl line).2 := by
  rw [serverStep_eq]
  dsimp only
  split <;> split <;> omega

theorem serverStep_d_bounds {lvl : Int} (h : 0 ≤ lvl) (line : Line) :
    (serverStepLevel lvl line).1 ≤ lvl ∧ lvl ≤ (serverStepLevel lvl line).1 + 1 := by
  rw [serverStep_eq]
  dsimp only
  split <;> omega

theorem serverStep_after_cases (lvl : Int) (line : Line) :
    (serverStepLevel lvl line).2 = (serverStepLevel lvl line).1 ∨
      (serverStepLevel lvl line).2 = (serverStepLevel lvl line).1 + 1 := by
  rw [serverStep_eq]
  dsimp only
  split
  · right; rfl
  · left; rfl

theorem serverLevels_nonneg (lines : List Line) : ∀ lvl : Int, 0 ≤ lvl →
    ∀ x ∈ serverLevels lvl lines, 0 ≤ x := by
  induction lines with
  | nil => intro lvl h x hx; simp [serverLevels] at hx
  | cons l ls ih =>
    intro lvl h x hx
    simp only [serverLevels, List.mem_cons] at hx
    rcases hx with rfl | hx
    · exact serverStep_d_nonneg h l
    · exact ih _ (serverStep_after_nonneg h l) x hx

theorem serverLevels_chain (lines : List Line) : ∀ lvl : Int, 0 ≤ lvl →
    List.Chain' (fun a b : Int => a ≤ b + 1 ∧ b ≤ a + 1) (serverLevels lvl lines) ∧
    (∀ y ∈ (serverLevels lvl lines).head?, y ≤ lvl ∧ lvl ≤ y + 1) := by
  induction lines with
  | nil =>
    intro lvl h
    constructor
    · simp [serverLevels]
    · intro y hy; simp [serverLevels] at hy
  | cons l ls ih =>
    intro lvl h
    have hd := serverStep_d_nonneg h l
    have ha := serverStep_after_nonneg h l
    obtain ⟨ihc, ihh⟩ := ih (serverStepLevel lvl l).2 ha
    have hrel := serverStep_d_bounds h l
    have hca := serverStep_after_cases lvl l
    constructor
    · show List.Chain' _ ((serverStepLevel lvl l).1 :: serverLevels (serverStepLevel lvl l).2 ls)
      rw [List.chain'_cons']
      refine ⟨?_, ihc⟩
      intro y hy
      obtain ⟨hy1, hy2⟩ := ihh y hy
      rcases hca with hc | hc <;> omega
    · intro y hy
      have hy' : (serverStepLevel lvl l).1 = y := by
        simpa [serverLevels] using hy
      rw [← hy']
      exact hrel

/-- Claim C4:.  The server formatter's single left-to-right pass: every
displayed indentation level is a non-negative integer; adjacent lines differ
by at most one step; an opening header increments the running level by
exactly 1 for the lines after it; and a transitional (`elseif`/`else:`)
header immediately after an opener is placed at the decremented level —
equal to the opener's own displayed level — with its body line at that level
plus 1. -/
theorem blockStack_level_invariants (lvl : Int) (hlvl : 0 ≤ lvl) :
    (∀ lines : List Line, ∀ x ∈ serverLevels lvl lines, 0 ≤ x) ∧
    (∀ lines : List Line,
      List.Chain' (fun a b : Int => a ≤ b + 1 ∧ b ≤ a + 1) (serverLevels lvl lines)) ∧
    (∀ line : Line, (serverStepLevel lvl line).2 =
      (if serverPostInc (trimB line) then (serverStepLevel lvl line).1 + 1
        else (serverStepLevel lvl line).1)) ∧
    (∀ a b c : Line, serverPostInc (trimB a) = true → serverPreDec (trimB b) = true →
      serverPostInc (trimB b) = true → serverPreDec (trimB c) = false →
      (serverStepLevel (serverStepLevel lvl a).2 b).1 = (serverStepLevel lvl a).1 ∧
      (serverStepLevel (serverStepLevel (serverStepLevel lvl a).2 b).2 c).1 =
        (serverStepLevel lvl a).1 + 1) := by
  refine ⟨fun lines => serverLevels_nonneg lines lvl hlvl,
    fun lines => (serverLevels_chain lines lvl hlvl).1, fun line => rfl, ?_⟩
  intro a b c hpa hdb hpb hdc
  have hda : 0 ≤ (serverStepLevel lvl a).1 := serverStep_d_nonneg hlvl a
  have h1 : (serverStepLevel lvl a).2 = (serverStepLevel lvl a).1 + 1 := by
    rw [serverStep_eq]
    dsimp only
    rw [if_pos hpa]
  have h2 : (serverStepLevel (serverStepLevel lvl a).2 b).1 =
      (serverStepLevel lvl a).1 := by
    rw [serverStep_eq]
    dsimp only
    rw [if_pos hdb, h1]
    omega
  have h3 : (serverStepLevel (serverStepLevel lvl a).2 b).2 =
      (serverStepLevel lvl a).1 + 1 := by
    rw [serverStep_eq]
    dsimp only
    rw [if_pos hpb, if_pos hdb, h1]
    omega
  refine ⟨h2, ?_⟩
  rw [serverStep_eq]
  dsimp only
  rw [if_neg (by simp [hdc]), h3]

/-- Witness for C4 at level 0 on concrete lines: `if x:` then `elseif y:`
then a plain body line. -/
theorem blockStack_level_invariants_witness :
    (serverStepLevel (serverStepLevel 0 (("if x:").toList)).2 (("elseif y:").toList)).1 =
      (serverStepLevel 0 (("if x:").toList)).1 ∧
    (serverStepLevel (serverStepLevel (serverStepLevel 0 (("if x:").toList)).2
        (("elseif y:").toList)).2 (("say hi").toList)).1 =
      (serverStepLevel 0 (("if x:").toList)).1 + 1 :=
  (blockStack_level_invariants 0 (by decide)).2.2.2 (("if x:").toList)
    (("elseif y:").toList) (("say hi").toList)
    (by decide) (by decide) (by decide) (by decide)

/-!
## C6: MissingColon diagnostics (server.ts 6.1) and their independence from
the task-balance check
-/

theorem trimR_append_of_ne_nil {b : Line} (hb : trimR b ≠ []) (a : Line) :
    trimR (a ++ b) = a ++ trimR b := by
  unfold trimR at hb ⊢
  rw [List.reverse_append, dropW_append]
  cases hdb : dropW b.reverse with
  | nil => rw [hdb] at hb; simp at hb
  | cons c cs => simp [hdb]

theorem trimR_decomp (x : Line) :
    x = trimR x ++ (takeW x.reverse).reverse ∧
    (∀ c ∈ (takeW x.reverse).reverse, wsC c = true) := by
  constructor
  · conv_lhs => rw [← List.reverse_reverse x, ← takeW_append_dropW x.reverse]
    rw [List.reverse_append]
    rfl
  · intro c hc
    exact takeW_ws _ c (by simpa using hc)

theorem dropW_of_head {c : Char} (hc : wsC c = false) (cs : Line) :
    dropW (c :: cs) = c :: cs := by
  simp [dropW, hc]

/-- If the trimmed line starts with a keyword on which both `start task` and
`end task` prefix matches fail, then neither test succeeds on the raw line
nor on the mechanically colon-fixed line. -/
theorem task_tests_of_trimB {l : Line} (kw r : Line) (hkw : trimB l = kw ++ r)
    (hkwc : kw ≠ []) (hkwh : wsC (kw.headD ' ') = false)
    (h1 : ∀ z : Line, word2Alt ("start").toList ("task").toList (kw ++ z) = false)
    (h2 : ∀ z : Line, word2Alt ("end").toList ("task").toList (kw ++ z) = false) :
    isStartTask l = false ∧ isEndTask l = false ∧
    isStartTask (trimR l ++ [':']) = false ∧ isEndTask (trimR l ++ [':']) = false := by
  obtain ⟨hdec, hdecws⟩ := trimR_decomp (dropW l)
  have hdl : dropW l = kw ++ (r ++ (takeW (dropW l).reverse).reverse) := by
    conv_lhs => rw [hdec]
    unfold trimB at hkw
    rw [hkw, List.append_assoc]
  have htb_ne : trimB l ≠ [] := by
    rw [hkw]
    cases kw with
    | nil => exact absurd rfl hkwc
    | cons c cs => simp
  have hfix : dropW (trimR l ++ [':']) = kw ++ (r ++ [':']) := by
    have hl : l = takeW l ++ dropW l := (takeW_append_dropW l).symm
    have htr : trimR l = takeW l ++ trimB l := by
      conv_lhs => rw [hl]
      exact trimR_append_of_ne_nil htb_ne (takeW l)
    rw [htr, List.append_assoc, dropW_ws_append (takeW_ws l), hkw, List.append_assoc]
    cases kw with
    | nil => exact absurd rfl hkwc
    | cons c cs =>
      have hc : wsC c = false := by simpa using hkwh
      exact dropW_of_head hc _
  refine ⟨?_, ?_, ?_, ?_⟩
  · show word2Alt ("start").toList ("task").toList (dropW l) = false
    rw [hdl]; exact h1 _
  · show word2Alt ("end").toList ("task").toList (dropW l) = false
    rw [hdl]; exact h2 _
  · show word2Alt ("start").toList ("task").toList (dropW (trimR l ++ [':'])) = false
    rw [hfix]; exact h1 _
  · show word2Alt ("end").toList ("task").toList (dropW (trimR l ++ [':'])) = false
    rw [hfix]; exact h2 _

theorem wordAlt_chomp {kw u : Line} (h : wordAlt kw u = true) :
    ∃ r, chomp kw u = some r := by
  unfold wordAlt at h
  cases hc : chomp kw u with
  | none => rw [hc] at h; simp at h
  | some r => exact ⟨r, rfl⟩

theorem onWordAlt_chomp {u : Line} (h : onWordAlt u = true) :
    ∃ r, chomp ("on").toList u = some r := by
  unfold onWordAlt at h
  cases hc : chomp ("on").toList u with
  | none => rw [hc] at h; simp at h
  | some r => exact ⟨r, rfl⟩

theorem word2Alt_chomp {k1 k2 u : Line} (h : word2Alt k1 k2 u = true) :
    ∃ r, chomp k1 u = some r := by
  unfold word2Alt at h
  cases hc : chomp k1 u with
  | none => rw [hc] at h; simp at h
  | some r => exact ⟨r, rfl⟩

/-- A colon-candidate header line (server.ts `endsWithColonCandidate`) is
never a `start task` or `end task` line, and stays that way after the
mechanical fix that appends `:` to its trimmed-end text. -/
theorem candidate_not_task {l : Line} (h : endsWithColonCandidate l = true) :
    isStartTask l = false ∧ isEndTask l = false ∧
    isStartTask (trimR l ++ [':']) = false ∧ isEndTask (trimR l ++ [':']) = false := by
  simp only [endsWithColonCandidate] at h
  by_cases hcm : (chomp ("//").toList (trimB l)).isSome
  · rw [if_pos hcm] at h; exact absurd h (by simp)
  · rw [if_neg hcm] at h
    by_cases hemp : (trimB l).isEmpty
    · rw [if_pos hemp] at h; exact absurd h (by simp)
    · rw [if_neg hemp] at h
      simp only [Bool.or_eq_true] at h
      rcases h with ((((((((hw | ho) | hi) | hei) | hel) | hrep) | hwh) | hfor) | hpar) | htem
      · obtain ⟨r, hr⟩ := wordAlt_chomp hw
        exact task_tests_of_trimB ("when").toList r (chomp_eq hr) (by decide) (by decide)
          (fun z => rfl) (fun z => rfl)
      · obtain ⟨r, hr⟩ := onWordAlt_chomp ho
        exact task_tests_of_trimB ("on").toList r (chomp_eq hr) (by decide) (by decide)
          (fun z => rfl) (fun z => rfl)
      · obtain ⟨r, hr⟩ := wordAlt_chomp hi
        exact task_tests_of_trimB ("if").toList r (chomp_eq hr) (by decide) (by decide)
          (fun z => rfl) (fun z => rfl)
      · obtain ⟨r, hr⟩ := wordAlt_chomp hei
        exact task_tests_of_trimB ("elseif").toList r (chomp_eq hr) (by decide) (by decide)
          (fun z => rfl) (fun z => rfl)
      · obtain ⟨r, hr⟩ := wordAlt_chomp hel
        exact task_tests_of_trimB ("else").toList r (chomp_eq hr) (by decide) (by decide)
          (fun z => rfl) (fun z => rfl)
      · obtain ⟨r, hr⟩ := wordAlt_chomp hrep
        exact task_tests_of_trimB ("repeat").toList r (chomp_eq hr) (by decide) (by decide)
          (fun z => rfl) (fun z => rfl)
      · obtain ⟨r, hr⟩ := wordAlt_chomp hwh
        exact task_tests_of_trimB ("while").toList r (chomp_eq hr) (by decide) (by decide)
          (fun z => rfl) (fun z => rfl)
      · obtain ⟨r, hr⟩ := wordAlt_chomp hfor
        exact task_tests_of_trimB ("for").toList r (chomp_eq hr) (by decide) (by decide)
          (fun z => rfl) (fun z => rfl)
      · obtain ⟨r, hr⟩ := wordAlt_chomp hpar
        exact task_tests_of_trimB ("parallel").toList r (chomp_eq hr) (by decide) (by decide)
          (fun z => rfl) (fun z => rfl)
      · obtain ⟨r, hr⟩ := word2Alt_chomp htem
        exact task_tests_of_trimB ("template").toList r (chomp_eq hr) (by decide) (by decide)
          (fun z => rfl) (fun z => rfl)

theorem serverMCAux_line_ge (ls : List Line) :
    ∀ base, ∀ d ∈ serverMCAux base ls, base ≤ d.line := by
  induction ls with
  | nil => intro base d hd; simp [serverMCAux] at hd
  | cons l ls ih =>
    intro base d hd
    simp only [serverMCAux] at hd
    by_cases hq : (endsWithColonCandidate l && !hasColonRe l) = true
    · rw [if_pos hq] at hd
      rcases List.mem_cons.mp hd with rfl | hd
      · exact Nat.le_refl _
      · exact Nat.le_of_succ_le (ih (base + 1) d hd)
    · rw [if_neg hq] at hd
      exact Nat.le_of_succ_le (ih (base + 1) d hd)

theorem serverMCAux_filter (ls : List Line) :
    ∀ base i, i < ls.length →
      ((serverMCAux base ls).filter (fun d => d.line == base + i)).length =
        (if endsWithColonCandidate (ls.getD i []) && !hasColonRe (ls.getD i [])
          then 1 else 0) := by
  induction ls with
  | nil => intro base i hi; simp at hi
  | cons l ls ih =>
    intro base i hi
    have htail0 : ∀ d ∈ serverMCAux (base + 1) ls, (d.line == base + 0) = false := by
      intro d hd
      have := serverMCAux_line_ge ls (base + 1) d hd
      simp only [beq_eq_false_iff_ne, ne_eq]
      omega
    have hnil : (serverMCAux (base + 1) ls).filter (fun d => d.line == base + 0) = [] := by
      rw [List.filter_eq_nil_iff]
      intro d hd
      have hge := serverMCAux_line_ge ls (base + 1) d hd
      simp only [beq_iff_eq]
      omega
    cases i with
    | zero =>
      simp only [serverMCAux, List.getD_cons_zero]
      by_cases hq : (endsWithColonCandidate l && !hasColonRe l) = true
      · rw [if_pos hq, if_pos hq]
        rw [List.filter_cons_of_pos (by simp), hnil]
        rfl
      · rw [if_neg hq, if_neg hq, hnil]
        rfl
    | succ j =>
      have hj : j < ls.length := by simpa using hi
      have harith : base + 1 + j = base + (j + 1) := by omega
      have hih := ih (base + 1) j hj
      rw [harith] at hih
      simp only [serverMCAux, List.getD_cons_succ]
      by_cases hq : (endsWithColonCandidate l && !hasColonRe l) = true
      · rw [if_pos hq]
        rw [List.filter_cons_of_neg (by simp)]
        exact hih
      · rw [if_neg hq]
        exact hih

theorem serverMCAux_mem (ls : List Line) :
    ∀ base i, i < ls.length →
      (endsWithColonCandidate (ls.getD i []) && !hasColonRe (ls.getD i [])) = true →
      MCDiag.mk (base + i) 0 (ls.getD i []).length ∈ serverMCAux base ls := by
  induction ls with
  | nil => intro base i hi; simp at hi
  | cons l ls ih =>
    intro base i hi hq
    cases i with
    | zero =>
      simp only [List.getD_cons_zero] at hq ⊢
      simp only [serverMCAux, if_pos hq]
      exact List.mem_cons_self _ _
    | succ j =>
      have hj : j < ls.length := by simpa using hi
      simp only [List.getD_cons_succ] at hq ⊢
      have hmem := ih (base + 1) j hj hq
      have harith : base + 1 + j = base + (j + 1) := by omega
      rw [harith] at hmem
      simp only [serverMCAux]
      by_cases hql : (endsWithColonCandidate l && !hasColonRe l) = true
      · rw [if_pos hql]
        exact List.mem_cons_of_mem _ hmem
      · rw [if_neg hql]
        exact hmem

theorem isStartTask_fix (l : Line) :
    isStartTask (if (endsWithColonCandidate l && !hasColonRe l) = true
      then trimR l ++ [':'] else l) = isStartTask l := by
  by_cases hq : (endsWithColonCandidate l && !hasColonRe l) = true
  · rw [if_pos hq]
    have hc : endsWithColonCandidate l = true := by
      rw [Bool.and_eq_true] at hq
      exact hq.1
    obtain ⟨h1, -, h3, -⟩ := candidate_not_task hc
    rw [h1, h3]
  · rw [if_neg hq]

theorem isEndTask_fix (l : Line) :
    isEndTask (if (endsWithColonCandidate l && !hasColonRe l) = true
      then trimR l ++ [':'] else l) = isEndTask l := by
  by_cases hq : (endsWithColonCandidate l && !hasColonRe l) = true
  · rw [if_pos hq]
    have hc : endsWithColonCandidate l = true := by
      rw [Bool.and_eq_true] at hq
      exact hq.1
    obtain ⟨-, h2, -, h4⟩ := candidate_not_task hc
    rw [h2, h4]
  · rw [if_neg hq]

theorem countStartSrv_fixColons (lines : List Line) :
    countStartSrv (fixColons lines) = countStartSrv lines := by
  induction lines with
  | nil => rfl
  | cons l ls ih =>
    simp only [fixColons, List.map_cons, countStartSrv] at ih ⊢
    rw [isStartTask_fix, ih]

theorem countEndSrv_fixColons (lines : List Line) :
    countEndSrv (fixColons lines) = countEndSrv lines := by
  induction lines with
  | nil => rfl
  | cons l ls ih =>
    simp only [fixColons, List.map_cons, countEndSrv] at ih ⊢
    rw [isEndTask_fix, ih]

/-- Claim C6:.  With the MissingColon severity not `off`, every colon-requiring
header line (server.ts `endsWithColonCandidate`) whose trimmed text does not
end in `:` yields exactly one MissingColon diagnostic, spanning the whole
line (characters `0` to `length`); and fixing the missing colons changes
nothing about the `UnbalancedTask` diagnostics, since a candidate header is
never a `start task`/`end task` line, colon or not. -/
theorem missingColon_exactly_one (sev : LintLevel) (hsev : sev ≠ LintLevel.off)
    (lines : List Line) (i : Nat) (hi : i < lines.length) :
    (((serverMissingColonDiags sev lines).filter (fun d => d.line == i)).length =
      (if endsWithColonCandidate (lines.getD i []) && !hasColonRe (lines.getD i [])
        then 1 else 0)) ∧
    ((endsWithColonCandidate (lines.getD i []) && !hasColonRe (lines.getD i [])) = true →
      MCDiag.mk i 0 (lines.getD i []).length ∈ serverMissingColonDiags sev lines) ∧
    (serverTaskDiags (fixColons lines)).length = (serverTaskDiags lines).length := by
  refine ⟨?_, ?_, ?_⟩
  · unfold serverMissingColonDiags
    rw [if_neg hsev]
    have := serverMCAux_filter lines 0 i hi
    simpa using this
  · intro hq
    unfold serverMissingColonDiags
    rw [if_neg hsev]
    have := serverMCAux_mem lines 0 i hi hq
    simpa using this
  · unfold serverTaskDiags
    rw [countStartSrv_fixColons, countEndSrv_fixColons]
    by_cases hc : (countStartSrv lines == countEndSrv lines) = true
    · rw [if_pos hc, if_pos hc]
    · rw [if_neg hc, if_neg hc]
      rfl

/-- Witness for C6 on a concrete document: line 0 is `if x` (missing colon),
line 1 is plain text. -/
theorem missingColon_exactly_one_witness :
    (((serverMissingColonDiags LintLevel.hint [("if x").toList, ("say hi").toList]).filter
        (fun d => d.line == 0)).length =
      (if endsWithColonCandidate ([("if x").toList, ("say hi").toList].getD 0 []) &&
          !hasColonRe ([("if x").toList, ("say hi").toList].getD 0 [])
        then 1 else 0)) ∧
    ((endsWithColonCandidate ([("if x").toList, ("say hi").toList].getD 0 []) &&
        !hasColonRe ([("if x").toList, ("say hi").toList].getD 0 [])) = true →
      MCDiag.mk 0 0 (([("if x").toList, ("say hi").toList].getD 0 []).length) ∈
        serverMissingColonDiags LintLevel.hint [("if x").toList, ("say hi").toList]) ∧
    (serverTaskDiags (fixColons [("if x").toList, ("say hi").toList])).length =
      (serverTaskDiags [("if x").toList, ("say hi").toList]).length :=
  missingColon_exactly_one LintLevel.hint (by decide)
    [("if x").toList, ("say hi").toList] 0 (by decide)

example : serverFolds [("if x:").toList, ("say a").toList, ("say b").toList] = [(0, 2)] := by
  decide

example :
    serverFolds [("if x:").toList, ("say a").toList, [], ("say b").toList] = [(0, 1)] := by
  decide

example :
    serverFolds [("start task \"A\"").toList, ("say a").toList, ("end task").toList] =
      [(0, 2)] := by decide

theorem trimB_of_blank {t : Line} (h : isBlankLine t = true) : trimB t = [] := by
  unfold isBlankLine at h
  rw [List.isEmpty_iff] at h
  unfold trimB
  rw [h]
  rfl

theorem trimB_of_comment {t : Line} (h : isCommentLine t = true) :
    ∃ z, trimB t = '/' :: '/' :: z := by
  unfold isCommentLine at h
  rw [Option.isSome_iff_exists] at h
  obtain ⟨r, hr⟩ := h
  have hx : dropW t = '/' :: '/' :: r := by
    have := chomp_eq hr
    simpa using this
  obtain ⟨hdec, hws⟩ := trimR_decomp (dropW t)
  rw [hx] at hdec hws
  unfold trimB
  rw [hx]
  rcases htr : trimR ('/' :: '/' :: r) with _ | ⟨c1, _ | ⟨c2, z⟩⟩
  · rw [htr] at hdec
    simp only [List.nil_append] at hdec
    have hmem : wsC '/' = true := hws '/' (by rw [← hdec]; simp)
    exact absurd hmem (by decide)
  · rw [htr] at hdec
    simp only [List.singleton_append] at hdec
    have hmem : wsC '/' = true := by
      refine hws '/' ?_
      injection hdec with h1 h2
      rw [← h2]
      simp
    exact absurd hmem (by decide)
  · rw [htr] at hdec
    simp only [List.cons_append, List.cons.injEq] at hdec
    obtain ⟨rfl, rfl, -⟩ := hdec
    exact ⟨z, rfl⟩

theorem serverStep_transparent {t : Line} (ht : (isBlankLine t || isCommentLine t) = true)
    (lvl : Int) : serverStepLevel lvl t = (lvl, lvl) := by
  have hcase : trimB t = [] ∨ ∃ z, trimB t = '/' :: '/' :: z := by
    rw [Bool.or_eq_true] at ht
    rcases ht with h | h
    · exact Or.inl (trimB_of_blank h)
    · exact Or.inr (trimB_of_comment h)
  rw [serverStep_eq]
  rcases hcase with h | ⟨z, h⟩ <;> rw [h]
  · rfl
  · rfl

theorem srvTask_transparent {t : Line} (ht : (isBlankLine t || isCommentLine t) = true) :
    isStartTask t = false ∧ isEndTask t = false := by
  rw [Bool.or_eq_true] at ht
  rcases ht with h | h
  · unfold isBlankLine at h
    rw [List.isEmpty_iff] at h
    unfold isStartTask isEndTask
    rw [h]
    exact ⟨rfl, rfl⟩
  · unfold isCommentLine at h
    rw [Option.isSome_iff_exists] at h
    obtain ⟨r, hr⟩ := h
    have hx : dropW t = '/' :: '/' :: r := by
      have := chomp_eq hr
      simpa using this
    unfold isStartTask isEndTask
    rw [hx]
    exact ⟨rfl, rfl⟩

theorem beforeSlashes_ws {t : Line} (ht : ∀ c ∈ t, wsC c = true) :
    beforeSlashes t = t := by
  induction t with
  | nil => rfl
  | cons c cs ih =>
    have hc : wsC c = true := ht c (by simp)
    have hcs : (c == '/') = false := by
      rcases Bool.eq_false_or_eq_true (c == '/') with h | h
      · rcases eq_of_beq h with rfl
        exact absurd hc (by decide)
      · exact h
    simp only [beforeSlashes, hcs, Bool.false_and, Bool.false_eq_true, if_false]
    rw [ih (fun x hx => ht x (by simp [hx]))]

theorem stripLineComment_transparent {t : Line}
    (ht : (isBlankLine t || isCommentLine t) = true) : stripLineComment t = [] := by
  rw [Bool.or_eq_true] at ht
  rcases ht with h | h
  · unfold isBlankLine at h
    rw [List.isEmpty_iff] at h
    have hws : ∀ c ∈ t, wsC c = true := by
      intro c hc
      have hsplit := takeW_append_dropW t
      rw [h, List.append_nil] at hsplit
      exact takeW_ws t c (by rw [hsplit]; exact hc)
    unfold stripLineComment
    rw [beforeSlashes_ws hws]
    unfold trimR
    rw [dropW_nil_of_ws (fun c hc => hws c (by simpa using hc))]
    rfl
  · unfold isCommentLine at h
    rw [Option.isSome_iff_exists] at h
    obtain ⟨r, hr⟩ := h
    have hx : dropW t = '/' :: '/' :: r := by
      have := chomp_eq hr
      simpa using this
    have hsplit : t = takeW t ++ ('/' :: '/' :: r) := by
      conv_lhs => rw [← takeW_append_dropW t]
      rw [hx]
    have hbs : beforeSlashes t = takeW t := by
      have : ∀ a : Line, (∀ c ∈ a, wsC c = true) →
          beforeSlashes (a ++ ('/' :: '/' :: r)) = a := by
        intro a
        induction a with
        | nil => intro _; rfl
        | cons c cs ih =>
          intro ha
          have hc : wsC c = true := ha c (by simp)
          have hcs : (c == '/') = false := by
            rcases Bool.eq_false_or_eq_true (c == '/') with h' | h'
            · rcases eq_of_beq h' with rfl
              exact absurd hc (by decide)
            · exact h' 
          simp only [List.cons_append, beforeSlashes, hcs, Bool.false_and,
            Bool.false_eq_true, if_false]
          have hih := ih (fun x hx => ha x (by simp [hx]))
          rw [show cs.append ('/' :: '/' :: r) = cs ++ ('/' :: '/' :: r) from rfl, hih]
      conv_lhs => rw [hsplit]
      exact this (takeW t) (takeW_ws t)
    unfold stripLineComment
    rw [hbs]
    unfold trimR
    rw [dropW_nil_of_ws (fun c hc => takeW_ws t c (by simpa using hc))]
    rfl

theorem serverLevels_append (xs : List Line) : ∀ (lvl : Int) (ys : List Line),
    serverLevels lvl (xs ++ ys) =
      serverLevels lvl xs ++ serverLevels (serverLevelEnd lvl xs) ys := by
  induction xs with
  | nil => intro lvl ys; rfl
  | cons l ls ih =>
    intro lvl ys
    simp only [List.cons_append, serverLevels, serverLevelEnd, List.append_eq]
    rw [ih]

theorem countStartSrv_append (xs ys : List Line) :
    countStartSrv (xs ++ ys) = countStartSrv xs + countStartSrv ys := by
  induction xs with
  | nil => simp [countStartSrv]
  | cons l ls ih =>
    simp only [List.cons_append, countStartSrv, List.append_eq, ih]
    omega

theorem countEndSrv_append (xs ys : List Line) :
    countEndSrv (xs ++ ys) = countEndSrv xs + countEndSrv ys := by
  induction xs with
  | nil => simp [countEndSrv]
  | cons l ls ih =>
    simp only [List.cons_append, countEndSrv, List.append_eq, ih]
    omega

theorem extBalAll_len_congr (ls : List Line) :
    ∀ idx idx' (stack stack' : List Nat), stack.length = stack'.length →
      (extBalAll idx stack ls).length = (extBalAll idx' stack' ls).length := by
  induction ls with
  | nil =>
    intro idx idx' stack stack' hlen
    simp [extBalAll, hlen]
  | cons l ls ih =>
    intro idx idx' stack stack' hlen
    simp only [extBalAll]
    by_cases he : (stripLineComment l).isEmpty = true
    · simp only [he, if_true]
      exact ih (idx + 1) (idx' + 1) stack stack' hlen
    · have he' : (stripLineComment l).isEmpty = false := by simpa using he
      simp only [he', Bool.false_eq_true, if_false]
      by_cases hs : extIsStart (stripLineComment l) = true
      · simp only [hs, if_true]
        exact ih (idx + 1) (idx' + 1) (idx :: stack) (idx' :: stack') (by simp [hlen])
      · have hs' : extIsStart (stripLineComment l) = false := by simpa using hs
        simp only [hs', Bool.false_eq_true, if_false]
        by_cases hd : extIsEnd (stripLineComment l) = true
        · simp only [hd, if_true]
          cases stack with
          | nil =>
            cases stack' with
            | nil => simp [ih (idx + 1) (idx' + 1) [] [] rfl]
            | cons a' rest' => simp at hlen
          | cons a rest =>
            cases stack' with
            | nil => simp at hlen
            | cons a' rest' =>
              exact ih (idx + 1) (idx' + 1) rest rest' (by simpa using hlen)
        · have hd' : extIsEnd (stripLineComment l) = false := by simpa using hd
          simp only [hd', Bool.false_eq_true, if_false]
          exact ih (idx + 1) (idx' + 1) stack stack' hlen

theorem extBalAll_insert_len (l1 : List Line) {t : Line} (ht : stripLineComment t = []) :
    ∀ (l2 : List Line) (idx idx' : Nat) (stack stack' : List Nat),
      stack.length = stack'.length →
      (extBalAll idx stack (l1 ++ t :: l2)).length =
        (extBalAll idx' stack' (l1 ++ l2)).length := by
  induction l1 with
  | nil =>
    intro l2 idx idx' stack stack' hlen
    simp only [List.nil_append, extBalAll, ht, List.isEmpty_nil, if_true]
    exact extBalAll_len_congr l2 (idx + 1) idx' stack stack' hlen
  | cons l ls ih =>
    intro l2 idx idx' stack stack' hlen
    simp only [List.cons_append, extBalAll, List.append_eq]
    by_cases he : (stripLineComment l).isEmpty = true
    · simp only [he, if_true]
      exact ih l2 (idx + 1) (idx' + 1) stack stack' hlen
    · have he' : (stripLineComment l).isEmpty = false := by simpa using he
      simp only [he', Bool.false_eq_true, if_false]
      by_cases hs : extIsStart (stripLineComment l) = true
      · simp only [hs, if_true]
        exact ih l2 (idx + 1) (idx' + 1) (idx :: stack) (idx' :: stack') (by simp [hlen])
      · have hs' : extIsStart (stripLineComment l) = false := by simpa using hs
        simp only [hs', Bool.false_eq_true, if_false]
        by_cases hd : extIsEnd (stripLineComment l) = true
        · simp only [hd, if_true]
          cases stack with
          | nil =>
            cases stack' with
            | nil => simp [ih l2 (idx + 1) (idx' + 1) [] [] rfl]
            | cons a' rest' => simp at hlen
          | cons a rest =>
            cases stack' with
            | nil => simp at hlen
            | cons a' rest' =>
              exact ih l2 (idx + 1) (idx' + 1) rest rest' (by simpa using hlen)
        · have hd' : extIsEnd (stripLineComment l) = false := by simpa using hd
          simp only [hd', Bool.false_eq_true, if_false]
          exact ih l2 (idx + 1) (idx' + 1) stack stack' hlen

/-- Claim C7: (amended).  A whitespace-only or comment-only line is transparent
to the indentation pass and to the task-balance diagnostics: inserting it
anywhere leaves every other line's indentation level unchanged (the inserted
line itself is shown at the running level), leaves the server's opener and
closer counts unchanged, and leaves the number of extension balance
diagnostics unchanged.  It is *not* transparent to the server's block
folding, which deliberately closes the innermost open block at each blank
line (see the counterexample). -/
theorem blank_comment_transparent (t : Line)
    (ht : (isBlankLine t || isCommentLine t) = true) (l1 l2 : List Line) (lvl : Int) :
    (serverLevels lvl (l1 ++ t :: l2) =
      serverLevels lvl l1 ++
        serverLevelEnd lvl l1 :: serverLevels (serverLevelEnd lvl l1) l2) ∧
    (serverLevels lvl (l1 ++ l2) =
      serverLevels lvl l1 ++ serverLevels (serverLevelEnd lvl l1) l2) ∧
    countStartSrv (l1 ++ t :: l2) = countStartSrv (l1 ++ l2) ∧
    countEndSrv (l1 ++ t :: l2) = countEndSrv (l1 ++ l2) ∧
    (extBalAll 0 [] (l1 ++ t :: l2)).length = (extBalAll 0 [] (l1 ++ l2)).length := by
  obtain ⟨hst, hen⟩ := srvTask_transparent ht
  refine ⟨?_, serverLevels_append l1 lvl l2, ?_, ?_, ?_⟩
  · rw [serverLevels_append l1 lvl (t :: l2)]
    simp only [serverLevels, serverStep_transparent ht]
  · rw [countStartSrv_append, countStartSrv_append]
    simp [countStartSrv, hst]
  · rw [countEndSrv_append, countEndSrv_append]
    simp [countEndSrv, hen]
  · exact extBalAll_insert_len l1 (stripLineComment_transparent ht) l2 0 0 [] [] rfl

/-- Witness for C7: inserting the blank line `""` between `if x:` and
`say hi` at level 0. -/
theorem blank_comment_transparent_witness :
    (serverLevels 0 ([("if x:").toList] ++ [] :: [("say hi").toList]) =
      serverLevels 0 [("if x:").toList] ++
        serverLevelEnd 0 [("if x:").toList] ::
          serverLevels (serverLevelEnd 0 [("if x:").toList]) [("say hi").toList]) ∧
    (serverLevels 0 ([("if x:").toList] ++ [("say hi").toList]) =
      serverLevels 0 [("if x:").toList] ++
        serverLevels (serverLevelEnd 0 [("if x:").toList]) [("say hi").toList]) ∧
    countStartSrv ([("if x:").toList] ++ [] :: [("say hi").toList]) =
      countStartSrv ([("if x:").toList] ++ [("say hi").toList]) ∧
    countEndSrv ([("if x:").toList] ++ [] :: [("say hi").toList]) =
      countEndSrv ([("if x:").toList] ++ [("say hi").toList]) ∧
    (extBalAll 0 [] ([("if x:").toList] ++ [] :: [("say hi").toList])).length =
      (extBalAll 0 [] ([("if x:").toList] ++ [("say hi").toList])).length :=
  blank_comment_transparent [] (by decide) [("if x:").toList] [("say hi").toList] 0

/-- Claim C7: counterexample.  A blank line inside an open `if` block terminates
the block's fold in the server's folding pass: with the blank the fold is
`(0, 1)`, without it the same block folds to `(0, 2)` — so folding ranges
are not determined by the non-blank lines alone. -/
theorem blank_closes_fold :
    isBlankLine [] = true ∧
    serverFolds [("if x:").toList, ("say a").toList, [], ("say b").toList] = [(0, 1)] ∧
    serverFolds [("if x:").toList, ("say a").toList, ("say b").toList] = [(0, 2)] := by
  decide

theorem extMCBudget_eq_take (ls : List Line) :
    ∀ r i, extMCBudget r i ls = (extMCAll i ls).take r := by
  induction ls with
  | nil => intro r i; simp [extMCBudget, extMCAll]
  | cons l ls ih =>
    intro r i
    cases r with
    | zero => simp [extMCBudget]
    | succ r =>
      simp only [extMCBudget, extMCAll]
      by_cases hb : isBlankLine l = true
      · simp [hb, ih]
      · have hb' : isBlankLine l = false := by simpa using hb
        simp only [hb', Bool.false_eq_true, if_false]
        by_cases he : (trimB (stripLineComment l)).isEmpty = true
        · simp [he, ih]
        · have he' : (trimB (stripLineComment l)).isEmpty = false := by simpa using he
          simp only [he', Bool.false_eq_true, if_false]
          by_cases hh : (extHeader (trimB (stripLineComment l)) &&
              !hasColonRe (trimB (stripLineComment l))) = true
          · simp [hh, ih]
          · have hh' := Bool.eq_false_iff.mpr hh
            simp [hh', ih]

theorem collectMC_len_le (lines : List Line) (b : Nat) :
    (collectMissingColonDiagnostics lines b).length ≤ b := by
  unfold collectMissingColonDiagnostics
  rw [extMCBudget_eq_take]
  exact List.length_take_le b (extMCAll 0 lines)

theorem collectBal_len_le (lines : List Line) (b : Nat) :
    (collectTaskBalanceDiagnostics lines b).length ≤ b := by
  unfold collectTaskBalanceDiagnostics
  rw [extBalAux_eq_take]
  exact List.length_take_le b (extBalAll 0 [] lines)

/-- Claim C8:.  For every configured budget `n ≥ 1`, the extension's validation
pass emits at most `n` diagnostics in total; the missing-colon diagnostics
collected first are kept as a prefix of the result (never discarded), and the
balance pass only receives the remaining budget. -/
theorem diagnostic_budget_cap (lines : List Line) (n : Nat) (mcOn balOn : Bool)
    (hn : 1 ≤ n) :
    (validateDocument lines n mcOn balOn).length ≤ n ∧
    (∃ rest, validateDocument lines n mcOn balOn =
      (if mcOn then (collectMissingColonDiagnostics lines (max 1 n)).map Sum.inl
        else []) ++ rest) := by
  have key : ∀ (mc bal : List (Sum Nat TaskDiag)) (m : Nat),
      mc.length ≤ m → bal.length ≤ m - mc.length → m = n → (mc ++ bal).length ≤ n := by
    intro mc bal m h1 h2 h3
    rw [List.length_append]
    omega
  have h1 : (if mcOn then (collectMissingColonDiagnostics lines (max 1 n)).map
      (Sum.inl : Nat → Sum Nat TaskDiag) else []).length ≤ max 1 n := by
    split
    · rw [List.length_map]
      exact collectMC_len_le lines (max 1 n)
    · simp
  have h2 : ∀ m : Nat, (if decide (m < max 1 n) && balOn
      then (collectTaskBalanceDiagnostics lines (max 1 n - m)).map
        (Sum.inr : TaskDiag → Sum Nat TaskDiag) else []).length ≤ max 1 n - m := by
    intro m
    split
    · rw [List.length_map]
      exact collectBal_len_le lines _
    · simp
  exact ⟨key _ _ (max 1 n) h1 (h2 _) (by omega), ⟨_, rfl⟩⟩

/-- Witness for C8: two colon-less headers but a budget of 1 yields exactly
one diagnostic. -/
theorem diagnostic_budget_cap_witness :
    (validateDocument [("if x").toList, ("when y").toList] 1 true true).length ≤ 1 ∧
    (∃ rest, validateDocument [("if x").toList, ("when y").toList] 1 true true =
      (if true then
        (collectMissingColonDiagnostics [("if x").toList, ("when y").toList]
          (max 1 1)).map Sum.inl
        else []) ++ rest) :=
  diagnostic_budget_cap [("if x").toList, ("when y").toList] 1 true true (by decide)

example :
    validateDocument [("if x").toList, ("when y").toList] 1 true true = [Sum.inl 0] := by
  decide

example :
    validateDocument [("if x").toList, ("when y").toList] 5 true true =
      [Sum.inl 0, Sum.inl 1] := by decide

example :
    serverSymbols [("start task \"A\"").toList, ("say hi").toList, ("end task").toList] =
      [OutSym.mk ("A").toList 0 2] := by decide

example :
    serverSymbols [("start task \"A\"").toList, ("say hi").toList] =
      [OutSym.mk ("A").toList 0 1] := by decide

example :
    symStackEnd 0 [] [("start task \"A\"").toList, ("say hi").toList] =
      [SymEntry.mk ("A").toList 0] := by decide

example :
    serverSymbols
        [("start task \"A\"").toList, ("start task \"B\"").toList, ("end task").toList,
          ("end task").toList] =
      [OutSym.mk ("B").toList 1 2, OutSym.mk ("A").toList 0 3] := by decide

theorem symFlush_mem {e : SymEntry} {stack : List SymEntry} (he : e ∈ stack) (eof : Nat) :
    OutSym.mk e.name e.startLine eof ∈ symFlush stack eof := by
  induction stack with
  | nil => simp at he
  | cons a rest ih =>
    rcases List.mem_cons.mp he with rfl | he'
    · simp [symFlush]
    · simp only [symFlush]
      exact List.mem_cons_of_mem _ (ih he')

theorem symAux_flush_mem (ls : List Line) :
    ∀ (i : Nat) (stack : List SymEntry) (eof : Nat) (e : SymEntry),
      e ∈ symStackEnd i stack ls →
      OutSym.mk e.name e.startLine eof ∈ symAux i stack eof ls := by
  induction ls with
  | nil => intro i stack eof e he; exact symFlush_mem he eof
  | cons l ls ih =>
    intro i stack eof e he
    simp only [symStackEnd] at he
    simp only [symAux]
    cases hp : parseTaskOpen l with
    | some name =>
      rw [hp] at he
      exact ih _ _ eof e he
    | none =>
      rw [hp] at he
      cases ht : parseTemplateOpen l with
      | some name =>
        rw [ht] at he
        exact ih _ _ eof e he
      | none =>
        rw [ht] at he
        by_cases hend : isEndTask l = true
        · rw [if_pos hend] at he ⊢
          cases stack with
          | nil => exact ih _ _ eof e he
          | cons a rest => exact List.mem_cons_of_mem _ (ih _ _ eof e he)
        · rw [if_neg hend] at he ⊢
          exact ih _ _ eof e he

/-- Claim C9:.  Every task opener left unmatched by the symbol scan (every entry
of the final stack) still appears in the outline, with its quoted-title name
and a range spanning from its opening line to the last line of the document:
unterminated tasks are never silently dropped. -/
theorem unterminated_task_in_outline (lines : List Line) (e : SymEntry)
    (he : e ∈ symStackEnd 0 [] lines) :
    OutSym.mk e.name e.startLine (lines.length - 1) ∈ serverSymbols lines :=
  symAux_flush_mem lines 0 [] (lines.length - 1) e he

/-- Witness for C9: an unterminated `start task "A"` still yields the outline
symbol `A`, line 0 to line 1 (the document's last line). -/
theorem unterminated_task_in_outline_witness :
    OutSym.mk ("A").toList 0
        ([("start task \"A\"").toList, ("say hi").toList].length - 1) ∈
      serverSymbols [("start task \"A\"").toList, ("say hi").toList] :=
  unterminated_task_in_outline [("start task \"A\"").toList, ("say hi").toList]
    (SymEntry.mk ("A").toList 0) (by decide)

theorem wsC_not_wordC {c : Char} (h : wsC c = true) : wordC c = false := by
  unfold wsC at h
  rw [Bool.or_eq_true, Bool.or_eq_true, Bool.or_eq_true, Bool.or_eq_true,
    Bool.or_eq_true] at h
  rcases h with ((((h | h) | h) | h) | h) | h <;>
    (rcases eq_of_beq h with rfl; decide)

theorem reqWs1_bAfter {r r4 : Line} (h : reqWs1 r = some r4) : bAfter r = true := by
  cases r with
  | nil => exact absurd h (by simp [reqWs1])
  | cons c cs =>
    have hws : wsC c = true := by
      by_cases hc : wsC c = true
      · exact hc
      · exact absurd h (by simp [reqWs1, hc])
    simp only [bAfter, wsC_not_wordC hws, Bool.not_false]

theorem parseTaskOpen_isStart {l : Line} {x : Line} (h : parseTaskOpen l = some x) :
    isStartTask l = true := by
  unfold parseTaskOpen at h
  rw [Option.bind_eq_some] at h
  obtain ⟨r, h1, h⟩ := h
  rw [Option.bind_eq_some] at h
  obtain ⟨r2, h2, h⟩ := h
  rw [Option.bind_eq_some] at h
  obtain ⟨r3, h3, h⟩ := h
  rw [Option.bind_eq_some] at h
  obtain ⟨r4, h4, -⟩ := h
  unfold isStartTask word2Alt
  rw [h1]
  dsimp only
  rw [h2]
  dsimp only
  rw [h3]
  dsimp only
  exact reqWs1_bAfter h4

theorem word2Alt_head_end {l : Line} (h : isEndTask l = true) :
    ∃ r, dropW l = 'e' :: 'n' :: 'd' :: r := by
  unfold isEndTask at h
  obtain ⟨r, hr⟩ := word2Alt_chomp h
  exact ⟨r, by simpa using chomp_eq hr⟩

theorem isEndTask_excl {l : Line} (h : isEndTask l = true) :
    isStartTask l = false ∧ parseTaskOpen l = none ∧ parseTemplateOpen l = none := by
  obtain ⟨r, hr⟩ := word2Alt_head_end h
  refine ⟨?_, ?_, ?_⟩
  · unfold isStartTask word2Alt
    rw [hr]
    rfl
  · unfold parseTaskOpen
    rw [hr]
    rfl
  · unfold parseTemplateOpen
    rw [hr]
    rfl

theorem notStart_parseTaskOpen {l : Line} (h : isStartTask l = false) :
    parseTaskOpen l = none := by
  cases hp : parseTaskOpen l with
  | none => rfl
  | some x => rw [parseTaskOpen_isStart hp] at h; exact absurd h (by simp)

/-- On a flat, fully-closed document the symbol scan and the task-fold scan
produce exactly the same `(startLine, endLine)` pairs. -/
theorem symAux_eq_taskFolds (ls : List Line) :
    ∀ (i eof : Nat) (st : Option (Line × Nat)),
      flatClosedAux st.isSome ls = true →
      (∀ p, st = some p → p.2 < i) →
      (symAux i (match st with | none => [] | some p => [SymEntry.mk p.1 p.2]) eof ls).map
          (fun s => (s.startLine, s.endLine)) =
        taskFoldsAux i (match st with | none => none | some p => some p.2) ls := by
  induction ls with
  | nil =>
    intro i eof st hf hlt
    cases st with
    | none => rfl
    | some p => simp [flatClosedAux] at hf
  | cons l ls ih =>
    intro i eof st hf hlt
    simp only [flatClosedAux] at hf
    by_cases hs : isStartTask l = true
    · rw [if_pos hs] at hf
      rw [Bool.and_eq_true, Bool.and_eq_true] at hf
      obtain ⟨⟨h1, h2⟩, h3⟩ := hf
      have hstn : st = none := by
        cases st with
        | none => rfl
        | some p => simp at h2
      subst hstn
      obtain ⟨name, hname⟩ := Option.isSome_iff_exists.mp h1
      simp only [symAux, taskFoldsAux, hname, hs, if_true]
      have := ih (i + 1) eof (some (name, i)) (by simpa using h3)
        (by intro p hp; injection hp with hp; rw [← hp]; exact Nat.lt_succ_self i)
      simpa using this
    · rw [if_neg hs] at hf
      have hs' : isStartTask l = false := by simpa using hs
      have hpt : parseTaskOpen l = none := notStart_parseTaskOpen hs'
      by_cases htm : (parseTemplateOpen l).isSome = true
      · rw [if_pos htm] at hf
        exact absurd hf (by simp)
      · have htm' : parseTemplateOpen l = none := by
          cases hx : parseTemplateOpen l with
          | none => rfl
          | some y => rw [hx] at htm; simp at htm
        rw [if_neg htm] at hf
        by_cases hend : isEndTask l = true
        · rw [if_pos hend] at hf
          rw [Bool.and_eq_true] at hf
          obtain ⟨h1, h2⟩ := hf
          cases st with
          | none => simp at h1
          | some p =>
            obtain ⟨name, s⟩ := p
            have hsi : s < i := by
              have := hlt (name, s) rfl
              simpa using this
            simp only [symAux, taskFoldsAux, hpt, htm', hs', hend, if_true,
              Bool.false_eq_true, if_false]
            rw [if_pos hsi]
            have := ih (i + 1) eof none (by simpa using h2) (by intro p hp; cases hp)
            simp only [List.map_cons]
            rw [← this]
            rfl
        · have hend' : isEndTask l = false := by simpa using hend
          rw [if_neg hend] at hf
          simp only [symAux, taskFoldsAux, hpt, htm', hs', hend', Bool.false_eq_true,
            if_false]
          exact ih (i + 1) eof st hf
            (fun p hp => Nat.lt_succ_of_lt (hlt p hp))

/-- Claim C5: (amended).  On documents whose tasks are titled, non-nested, not
templates, and all explicitly terminated, every outline symbol's
`(startLine, endLine)` range is exactly a folding range of the same
document.  (With nesting or unterminated tasks this fails: the fold pass
uses a single `taskStart` variable while the symbol pass uses a stack; see
the counterexample.) -/
theorem fold_symbol_consistency (lines : List Line) (hf : flatClosed lines = true) :
    ∀ s ∈ serverSymbols lines, (s.startLine, s.endLine) ∈ serverFolds lines := by
  intro s hs
  have hmap : (serverSymbols lines).map (fun s => (s.startLine, s.endLine)) =
      taskFoldsAux 0 none lines := by
    have := symAux_eq_taskFolds lines 0 (lines.length - 1) none
      (by simpa [flatClosed] using hf) (by intro p hp; cases hp)
    simpa [serverSymbols] using this
  have hin : (s.startLine, s.endLine) ∈
      (serverSymbols lines).map (fun s => (s.startLine, s.endLine)) :=
    List.mem_map_of_mem _ hs
  rw [hmap] at hin
  unfold serverFolds
  exact List.mem_append_left _ hin

/-- Witness for C5 on a flat document with one closed task. -/
theorem fold_symbol_consistency_witness :
    (OutSym.mk ("A").toList 0 2).startLine ∈
      (serverFolds
        [("start task \"A\"").toList, ("say hi").toList, ("end task").toList]).map
        Prod.fst ∧
    ((OutSym.mk ("A").toList 0 2).startLine, (OutSym.mk ("A").toList 0 2).endLine) ∈
      serverFolds
        [("start task \"A\"").toList, ("say hi").toList, ("end task").toList] :=
  ⟨by decide,
    fold_symbol_consistency
      [("start task \"A\"").toList, ("say hi").toList, ("end task").toList]
      (by decide) (OutSym.mk ("A").toList 0 2) (by decide)⟩

/-- Claim C5: counterexample.  An unterminated task still yields an outline
symbol (spanning to the last line), but the folding pass produces no fold at
all for it — the symbol's range matches no folding range.  (Nested tasks
fail similarly: the outer task's symbol `(0, 3)` has no fold, since the
single `taskStart` variable was overwritten.) -/
theorem fold_symbol_mismatch :
    serverSymbols [("start task \"A\"").toList, ("say hi").toList] =
      [OutSym.mk ("A").toList 0 1] ∧
    serverFolds [("start task \"A\"").toList, ("say hi").toList] = [] ∧
    serverSymbols
        [("start task \"A\"").toList, ("start task \"B\"").toList, ("end task").toList,
          ("end task").toList] =
      [OutSym.mk ("B").toList 1 2, OutSym.mk ("A").toList 0 3] ∧
    (0, 3) ∉
      serverFolds
        [("start task \"A\"").toList, ("start task \"B\"").toList, ("end task").toList,
          ("end task").toList] := by
  decide

example : blankPre ("  ").toList = true := by decide

example : afterOnP ("  on ").toList = true := by decide

example : afterOnP ("son ").toList = false := by decide

example : afterRepeatP ("repeat ").toList = true := by decide

example : afterRepeatP ("repeat 12 ").toList = true := by decide

example : afterRepeatP ("repeat 5x").toList = false := by decide

example : afterAtTimeP ("at time").toList = true := by decide

example : afterAtTimeP ("at time  ").toList = true := by decide

/-- Claim C10:.  If the prefix before the cursor matches none of the six
context rules, the completion operation returns exactly the full unfiltered
catalog: every action verb, directive, structural keyword, operator, and
user-configured extra keyword.  (The handler reads the document and pushes
items only — it never emits diagnostics.) -/
theorem completion_fallback_full_catalog (tc : Line) (extras : List String)
    (h1 : blankPre tc = false) (h2 : afterOnP tc = false)
    (h3 : afterUseP tc = false) (h4 : afterRepeatP tc = false)
    (h5 : afterIfP tc = false) (h6 : afterAtTimeP tc = false) :
    onCompletionLabels tc extras =
      ACTION_LABELS ++ DIRECTIVES ++ STRUCTURAL ++ OPERATORS ++ extras := by
  unfold onCompletionLabels
  simp only [h1, h2, h3, h4, h5, h6, Bool.false_eq_true, if_false, List.nil_append]

/-- Witness for C10: the prefix `say ` matches no context rule, so the full
catalog (plus the configured extra keyword) is returned. -/
theorem completion_fallback_full_catalog_witness :
    onCompletionLabels ("say ").toList ["mykeyword"] =
      ACTION_LABELS ++ DIRECTIVES ++ STRUCTURAL ++ OPERATORS ++ ["mykeyword"] :=
  completion_fallback_full_catalog ("say ").toList ["mykeyword"]
    (by decide) (by decide) (by decide) (by decide) (by decide) (by decide)
